import Mathlib

set_option maxRecDepth 100000

/-!
# Verification of the sticky-notes board persistence layer

A shallow embedding of the board persistence and reconciliation layer of the
realistic-sticky-notes plugin (`src/notes/managers/WhiteboardFileManager.ts`,
current version; `src/notes/managers/LegacyMigrationManager.ts`; the board
deletion call sites in `src/views/dashboard.tsx` and `src/notes/index.tsx`).

Modelling conventions:
* File contents and paths are Lean `String`s; parsing works on `String.data`
  (lists of characters), with hand-rolled split/join primitives mirroring the
  JavaScript string operations used by the source.
* JavaScript numbers carrying note coordinates are modelled as `ℚ`;
  `Math.round` is `jsRound` below.  Rotation fields are modelled as `ℤ`
  (the source never rounds or otherwise computes with them).
* The vault and the host's structured-metadata index (`metadataCache`) are
  external collaborators.  The index is modelled from the spec: a pre-parsed
  view of a file's header block, assumed in sync with file content
  (read-after-write consistency is a stated boundary assumption of the spec),
  i.e. `parseFM` applied to the current content.
* Asynchronous batches are linearised: within one save, note writes touch
  pairwise distinct files, so the sequential fold is a canonical
  interleaving of the chunked concurrent writes.
-/

/-- JS `Math.round` on a rational: `⌊q + 1/2⌋` (half-up, toward +∞),
computed via `Int.fdiv` so that it evaluates by kernel reduction. -/
def jsRound (q : ℚ) : ℤ := Int.fdiv (2 * q.num + q.den) (2 * q.den)

/-- An integer as a rational (the value a numeric header field has after a
round trip through the integer-rounding encoder). -/
def intAsRat (k : ℤ) : ℚ := mkRat k 1

/-! ## Decimal digits: rendering and parsing

The source serialises numbers with JS number-to-string (`${Math.round(x)}`),
and numeric header fields come back through the YAML front-matter parser.
We model both directions with an explicit decimal codec. -/

/-- The decimal digit character for `d` (`d < 10`). -/
def dChar (d : Nat) : Char :=
  match d with
  | 0 => '0' | 1 => '1' | 2 => '2' | 3 => '3' | 4 => '4'
  | 5 => '5' | 6 => '6' | 7 => '7' | 8 => '8' | 9 => '9'
  | _ => '?'

/-- Numeric value of a decimal digit character. -/
def dVal (c : Char) : Option Nat :=
  if '0' ≤ c ∧ c ≤ '9' then some (c.toNat - '0'.toNat) else none

/-- Fuel-driven decimal rendering of a natural number (most significant digit
first); `fuel > n` suffices. -/
def natCharsF : Nat → Nat → List Char
  | 0, _ => []
  | fuel + 1, n =>
    if n < 10 then [dChar n] else natCharsF fuel (n / 10) ++ [dChar (n % 10)]

/-- Decimal rendering of a natural number. -/
def natChars (n : Nat) : List Char := natCharsF (n + 1) n

/-- One step of decimal parsing: shift the accumulator and add a digit. -/
def parseNatAux (acc : Option Nat) (c : Char) : Option Nat :=
  match acc, dVal c with
  | some a, some d => some (10 * a + d)
  | _, _ => none

/-- Parse a non-empty all-digit character list as a natural number. -/
def parseNatChars (cs : List Char) : Option Nat :=
  match cs with
  | [] => none
  | _ => cs.foldl parseNatAux (some 0)

/-- Decimal rendering of an integer (JS `String(k)` for integral `k`). -/
def intRepr (k : ℤ) : List Char :=
  if k < 0 then '-' :: natChars (-k).toNat else natChars k.toNat

/-- Parse an optionally-sign-prefixed decimal integer. -/
def parseIntChars (cs : List Char) : Option ℤ :=
  match cs with
  | [] => none
  | c :: rest =>
    if c = '-' then (parseNatChars rest).map (fun n => -(n : ℤ))
    else (parseNatChars (c :: rest)).map (fun n => (n : ℤ))

/-! ## Character-list string primitives

Explicit models of the JavaScript string operations used by the source
(`split`, `join('\n')`, `trim`, quote escaping, `key: value` splitting). -/

/-- Split a character list at every occurrence of `sep` (JS `String.split`). -/
def chSplit (sep : Char) : List Char → List (List Char)
  | [] => [[]]
  | c :: rest =>
    if c = sep then [] :: chSplit sep rest
    else
      match chSplit sep rest with
      | l :: ls => (c :: l) :: ls
      | [] => [[c]]

/-- Join lines with `'\n'` (JS `Array.join('\n')`). -/
def chUnlines : List (List Char) → List Char
  | [] => []
  | [l] => l
  | l :: ls => l ++ '\n' :: chUnlines ls

/-- Whitespace for the purposes of JS `String.trim` (the characters that can
actually occur in this model). -/
def isWs (c : Char) : Bool := c = ' ' || c = '\n' || c = '\t' || c = '\r'

/-- JS `String.trim` on a character list. -/
def trimChars (cs : List Char) : List Char :=
  ((cs.dropWhile isWs).reverse.dropWhile isWs).reverse

/-- Escape embedded quotes (`.replace(/"/g, '\\"')` in `constructFileContent`). -/
def escapeQ : List Char → List Char
  | [] => []
  | c :: rest => if c = '"' then '\\' :: '"' :: escapeQ rest else c :: escapeQ rest

/-- Undo quote escaping (YAML double-quoted scalar unescaping, modelled from
the spec for the host's front-matter index). -/
def unescapeQ : List Char → List Char
  | '\\' :: '"' :: rest => '"' :: unescapeQ rest
  | c :: rest => c :: unescapeQ rest
  | [] => []

/-- Split a header line at the first `": "` into key and value.
Modelled from the spec: one `key: value` pair per header line. -/
def splitKV : List Char → Option (List Char × List Char)
  | [] => none
  | ':' :: ' ' :: rest => some ([], rest)
  | c :: rest => (splitKV (id rest)).map (fun kv => (c :: kv.1, kv.2))

/-- Interpret a YAML scalar value: a double-quoted value is unquoted and
unescaped, anything else is taken verbatim.  Modelled from the spec for the
host's front-matter index. -/
def unquoteVal (cs : List Char) : List Char :=
  match cs with
  | '"' :: rest =>
    if rest ≠ [] ∧ rest.getLast? = some '"' then unescapeQ rest.dropLast else cs
  | _ => cs

/-- Strip a literal first argument from the front of the second. -/
def stripPre : List Char → List Char → Option (List Char)
  | [], rest => some rest
  | _ :: _, [] => none
  | a :: as, b :: bs => if a = b then stripPre as bs else none

/-! ## Path helpers

Models of the host's `TFile.name` / `TFile.basename` / `TFile.extension`
(the name is the last `/`-separated component; the extension is the part of
the name after its last dot) and of direct-child membership in a folder. -/

/-- Last element of a `chSplit` result (total: `chSplit` is never empty). -/
def lastChunk (sep : Char) (cs : List Char) : List Char :=
  (chSplit sep cs).getLastD []

/-- `TFile.name`: the last path component. -/
def fileName (p : String) : String := ⟨lastChunk '/' p.data⟩

/-- Character-level extension: the part of a file name after its last dot
(empty for dotless names). -/
def extChars (name : List Char) : List Char :=
  let parts := chSplit '.' name
  if parts.length ≥ 2 then parts.getLastD [] else []

/-- `TFile.extension`. -/
def extOf (p : String) : String := ⟨extChars (lastChunk '/' p.data)⟩

/-- Join chunks with an arbitrary separator (used to rebuild a dotted base name). -/
def chJoinWith (sep : Char) : List (List Char) → List Char
  | [] => []
  | [l] => l
  | l :: ls => l ++ sep :: chJoinWith sep ls

/-- Character-level `TFile.basename`: the name minus its last extension. -/
def baseChars (name : List Char) : List Char :=
  let parts := chSplit '.' name
  if parts.length ≥ 2 then chJoinWith '.' parts.dropLast else name

/-- `TFile.basename`. -/
def basename (p : String) : String := ⟨baseChars (lastChunk '/' p.data)⟩

/-- Is `p` a direct child of directory `folder` (i.e. `folder ++ "/" ++ name`
with a nonempty, slash-free `name`)? -/
def isDirectChild (folder p : String) : Bool :=
  match stripPre (folder.data ++ ['/']) p.data with
  | some rest => !rest.isEmpty && !rest.contains '/'
  | none => false

/-! ## The note record and the wire format

`StickyNoteData` from `src/notes/types.ts`, restricted to the fields the
persistence layer reads or writes (`bgImage` and `zIndex` are neither emitted
by `constructFileContent` nor restored by `parseNoteFile`, so they are not
modelled).  Enumeration-typed fields are modelled as strings, as at the
JavaScript runtime; coordinates are `ℚ`, rotations `ℤ`. -/

structure Note where
  id : String
  x : ℚ
  y : ℚ
  color : String
  size : String
  shape : String
  style : String
  bgStyle : String
  rotation : ℤ
  pinType : String
  pinPos : String
  content : String
  filepath : String
  originalRotation : Option ℤ
deriving DecidableEq, Repr

/-- A parsed front-matter block as held by the host's metadata index: each
known key's value, absent if the key is missing (unparseable numeric values
are also treated as absent).  Modelled from the spec: the structured-metadata
index is a pre-parsed view of the header fields. -/
structure FM where
  type : Option (List Char) := none
  id : Option (List Char) := none
  x : Option ℤ := none
  y : Option ℤ := none
  color : Option (List Char) := none
  size : Option (List Char) := none
  shape : Option (List Char) := none
  style : Option (List Char) := none
  bgStyle : Option (List Char) := none
  rotation : Option ℤ := none
  pinType : Option (List Char) := none
  pinPos : Option (List Char) := none
  originalRotation : Option ℤ := none
deriving DecidableEq, Repr

/-- Nonempty and newline-free: what an enumeration-valued field looks like at
runtime (the TS union types guarantee this). -/
def validStr (s : String) : Bool := !s.data.isEmpty && !decide ('\n' ∈ s.data)

/-- A well-formed identifier: nonempty, and free of newlines, backslashes and
slashes (it is embedded in a quoted header line and in a file name). -/
def validId (s : String) : Bool :=
  validStr s && !decide ('\\' ∈ s.data) && !decide ('/' ∈ s.data)

/-- A valid note record: the fields that flow into the structured header are
well-formed.  Body text and numeric fields are unrestricted. -/
def validNote (n : Note) : Bool :=
  validId n.id && validStr n.color && validStr n.size && validStr n.shape &&
  validStr n.style && validStr n.bgStyle && validStr n.pinType && validStr n.pinPos

/-- One `key: value` header line. -/
def fieldLine (k v : List Char) : List Char := k ++ ':' :: ' ' :: v

/-- The header lines emitted by `constructFileContent`, in source order.
The identifier value is quoted with embedded quotes escaped; `x`/`y` are
rounded to integers before rendering; `originalRotation` is emitted only
when present. -/
def headerLines (n : Note) : List (List Char) :=
  [fieldLine "type".data "sticky-note".data,
   fieldLine "id".data ('"' :: (escapeQ n.id.data ++ ['"'])),
   fieldLine "x".data (intRepr (jsRound n.x)),
   fieldLine "y".data (intRepr (jsRound n.y)),
   fieldLine "color".data n.color.data,
   fieldLine "size".data n.size.data,
   fieldLine "shape".data n.shape.data,
   fieldLine "style".data n.style.data,
   fieldLine "bgStyle".data n.bgStyle.data,
   fieldLine "rotation".data (intRepr n.rotation),
   fieldLine "pinType".data n.pinType.data,
   fieldLine "pinPos".data n.pinPos.data] ++
  (match n.originalRotation with
   | some r => [fieldLine "originalRotation".data (intRepr r)]
   | none => [])

/-- The full line list built by `constructFileContent` before `join('\n')`:
opening delimiter, header lines, closing delimiter, blank separator, body. -/
def noteLines (n : Note) : List (List Char) :=
  "---".data :: headerLines n ++ ["---".data, [], n.content.data]

/-- `constructFileContent` (WhiteboardFileManager.ts:661): hand-built
front-matter followed by a blank line and the body, joined with `'\n'`. -/
def constructFileContent (n : Note) : String := ⟨chUnlines (noteLines n)⟩

/-- Assign one parsed `key: value` pair into the front-matter record
(unknown keys are ignored; the id value is unquoted; numeric values parse
as integers or are treated as absent). -/
def setFMField (fm : FM) (k v : List Char) : FM :=
  if k = "type".data then { fm with type := some v }
  else if k = "id".data then { fm with id := some (unquoteVal v) }
  else if k = "x".data then { fm with x := parseIntChars v }
  else if k = "y".data then { fm with y := parseIntChars v }
  else if k = "color".data then { fm with color := some v }
  else if k = "size".data then { fm with size := some v }
  else if k = "shape".data then { fm with shape := some v }
  else if k = "style".data then { fm with style := some v }
  else if k = "bgStyle".data then { fm with bgStyle := some v }
  else if k = "rotation".data then { fm with rotation := parseIntChars v }
  else if k = "pinType".data then { fm with pinType := some v }
  else if k = "pinPos".data then { fm with pinPos := some v }
  else if k = "originalRotation".data then { fm with originalRotation := parseIntChars v }
  else fm

/-- Fold one header line into the front-matter record. -/
def stepFM (fm : FM) (l : List Char) : FM :=
  match splitKV l with
  | some kv => setFMField fm kv.1 kv.2
  | none => fm

/-- Build the front-matter record from the header lines. -/
def buildFM (lines : List (List Char)) : FM := lines.foldl stepFM {}

/-- The lines strictly between the opening delimiter and the first closing
delimiter line, if a closing delimiter exists. -/
def takeToClose : List (List Char) → Option (List (List Char))
  | [] => none
  | l :: ls => if l = "---".data then some [] else (takeToClose ls).map (l :: ·)

/-- Front-matter extraction from a line list: the file must open with the
delimiter line and contain a closing delimiter line. -/
def parseFMlines (lines : List (List Char)) : Option FM :=
  match lines with
  | first :: rest =>
    if first = "---".data then (takeToClose rest).map buildFM else none
  | [] => none

/-- The host metadata index's view of a file: its parsed front-matter block.
Modelled from the spec: the index is assumed in sync with file content. -/
def parseFM (content : String) : Option FM := parseFMlines (chSplit '\n' content.data)

/-- The expected metadata view of a freshly encoded note. -/
def fmOfNote (n : Note) : FM :=
  { type := some "sticky-note".data
    id := some n.id.data
    x := some (jsRound n.x)
    y := some (jsRound n.y)
    color := some n.color.data
    size := some n.size.data
    shape := some n.shape.data
    style := some n.style.data
    bgStyle := some n.bgStyle.data
    rotation := some n.rotation
    pinType := some n.pinType.data
    pinPos := some n.pinPos.data
    originalRotation := n.originalRotation }

/-! ## Body extraction

`parseNoteFile` removes the front-matter block with
`content.replace(/^---\n[\s\S]*?\n---\n?/, '')` and trims the remainder.
The lazy regex removes everything up to and including the first `"\n---"`
occurrence plus one optional following newline. -/

/-- Drop at most one leading newline (the regex's trailing `\n?`). -/
def dropOneNl (cs : List Char) : List Char :=
  match cs with
  | '\n' :: r => r
  | r => r

/-- Scan for the first occurrence of `"\n---"`; return what follows it
(minus one optional newline). -/
def afterClose : List Char → Option (List Char)
  | '\n' :: '-' :: '-' :: '-' :: rest => some (dropOneNl rest)
  | _ :: rest => afterClose rest
  | [] => none

/-- The body-regex replacement: if the text opens with the delimiter line and
a closing `"\n---"` occurs, remove through it; otherwise leave the text
unchanged (the regex does not match). -/
def stripFMChars (cs : List Char) : List Char :=
  match cs with
  | '-' :: '-' :: '-' :: '\n' :: rest =>
    match afterClose rest with
    | some r => r
    | none => cs
  | _ => cs

/-! ## Vault I/O events and per-file operations -/

/-- Observable vault I/O calls: full-content read (`vault.read`), overwrite
(`vault.modify`), creation (`vault.create`), move-to-trash (`vault.trash`),
folder creation (`vault.createFolder`), rename (`vault.rename`). -/
inductive Ev where
  | read (p : String)
  | modify (p : String)
  | create (p : String)
  | trash (p : String)
  | mkdir (p : String)
  | rename (src dst : String)
deriving DecidableEq, Repr

/-- JS `a || b` on a string-valued header field (`undefined` and the empty
string are falsy). -/
def strOr (v : Option (List Char)) (dflt : List Char) : List Char :=
  match v with
  | some s => if s.isEmpty then dflt else s
  | none => dflt

/-- `hasMetadataChanged` (WhiteboardFileManager.ts:629): field-by-field
comparison of the cached front-matter against the in-memory note; a missing
cache or front-matter block forces an update.  `String(fm.id)` renders a
missing id as `"undefined"`; `x`/`y` are compared against the rounded
coordinates, mirroring `constructFileContent`'s `Math.round`. -/
def hasMetadataChanged (cache : Option FM) (note : Note) : Bool :=
  match cache with
  | none => true
  | some fm =>
    if fm.id.getD "undefined".data ≠ note.id.data then true
    else if fm.x ≠ some (jsRound note.x) then true
    else if fm.y ≠ some (jsRound note.y) then true
    else if fm.rotation ≠ some note.rotation then true
    else if fm.color ≠ some note.color.data then true
    else if fm.size ≠ some note.size.data then true
    else if fm.shape ≠ some note.shape.data then true
    else if fm.style ≠ some note.style.data then true
    else if fm.bgStyle ≠ some note.bgStyle.data then true
    else if fm.pinType ≠ some note.pinType.data then true
    else if fm.pinPos ≠ some note.pinPos.data then true
    else false

/-- `parseNoteFile` (WhiteboardFileManager.ts:521): a file qualifies only if
its cached front-matter carries the sticky-note type marker; field values are
read with per-field falsy fallbacks, the body is the text after the
front-matter block, trimmed; the identifier falls back to the file's base
name; the storage locator is set to the file's path.  Returns the `vault.read`
events performed alongside the parse result. -/
def parseNoteFile (path content : String) : List Ev × Option Note :=
  match parseFM content with
  | some fm =>
    if fm.type = some "sticky-note".data then
      ([Ev.read path],
       some
         { id := ⟨strOr fm.id (basename path).data⟩
           x := intAsRat (fm.x.getD 0)
           y := intAsRat (fm.y.getD 0)
           color := ⟨strOr fm.color "yellow".data⟩
           size := ⟨strOr fm.size "m".data⟩
           shape := ⟨strOr fm.shape "square".data⟩
           style := ⟨strOr fm.style "realistic".data⟩
           bgStyle := ⟨strOr fm.bgStyle "solid".data⟩
           rotation := fm.rotation.getD 0
           pinType := ⟨strOr fm.pinType "none".data⟩
           pinPos := ⟨strOr fm.pinPos "center".data⟩
           content := ⟨trimChars (stripFMChars content.data)⟩
           filepath := path
           originalRotation := fm.originalRotation })
    else ([], none)
  | none => ([], none)

/-- What a note looks like after one save/load round trip: coordinates
rounded to integers, body trimmed, storage locator pointing at the file. -/
def roundTripNote (p : String) (n : Note) : Note :=
  { n with
    x := intAsRat (jsRound n.x)
    y := intAsRat (jsRound n.y)
    content := ⟨trimChars n.content.data⟩
    filepath := p }

/-! ## The vault state and the file manager

The vault holds the active files (path ↦ content), the folders, the trashed
files and the persisted plugin settings' migrated-file list.  `normalizePath`
is the identity here: paths are built already normalized (the spec states all
paths are normalized before use).  The base path is the settings default. -/

structure St where
  files : List (String × String)
  folders : List String
  trashed : List (String × String)
  migrated : List String
deriving DecidableEq, Repr

/-- `settings.basePath` default (`'StickyNotes'`). -/
def basePath : String := "StickyNotes"

/-- A board's directory path (`normalizePath(basePath + '/' + boardName)`). -/
def boardFolderPath (boardName : String) : String := basePath ++ "/" ++ boardName

/-- `vault.getAbstractFileByPath` restricted to plain files. -/
def lookupFile (st : St) (p : String) : Option String :=
  (st.files.find? (fun e => e.1 = p)).map (·.2)

/-- `vault.modify`: overwrite the content stored at `p`. -/
def modifyFile (st : St) (p c : String) : St :=
  { st with files := st.files.map (fun e => if e.1 = p then (p, c) else e) }

/-- `metadataCache.getFileCache(file)?.frontmatter`: the host's pre-parsed
view of the file's header.  Modelled from the spec: the index is kept in sync
with the file's current content. -/
def getCache (st : St) (p : String) : Option FM :=
  (lookupFile st p).bind parseFM

/-- The write paths of `saveNote` against an existing target file `f`
(WhiteboardFileManager.ts:598): if the cached metadata differs, overwrite
without reading; otherwise read the full content and overwrite only when the
bytes differ. -/
def writeExisting (st : St) (evs0 : List Ev) (note : Note) (f : String) :
    St × List Ev × Note × Option String :=
  let newFileContent := constructFileContent note
  let cache := getCache st f
  let isMetadataDirty := hasMetadataChanged cache note
  if isMetadataDirty then
    (modifyFile st f newFileContent, evs0 ++ [Ev.modify f],
     { note with filepath := f }, some f)
  else
    let currentContent := (lookupFile st f).getD ""
    if currentContent ≠ newFileContent then
      (modifyFile st f newFileContent, evs0 ++ [Ev.read f, Ev.modify f],
       { note with filepath := f }, some f)
    else
      (st, evs0 ++ [Ev.read f], { note with filepath := f }, some f)

/-- The target-resolution and write stage of `saveNote`
(WhiteboardFileManager.ts:565–616), after the folder check: reuse the note's
storage locator if it still names a file; otherwise use the synthesized
`Note <id>.md` path, writing over a file already there, failing safely (the
source's try/catch logs and returns `null`) when `vault.create` would hit a
path occupied by a folder, and creating the file otherwise. -/
def saveNoteCore (st : St) (evs0 : List Ev) (boardName : String) (note : Note) :
    St × List Ev × Note × Option String :=
  if note.filepath ≠ "" ∧ (lookupFile st note.filepath).isSome then
    writeExisting st evs0 note note.filepath
  else if (lookupFile st (boardFolderPath boardName ++ "/Note " ++ note.id ++ ".md")).isSome then
    writeExisting st evs0 note (boardFolderPath boardName ++ "/Note " ++ note.id ++ ".md")
  else if st.folders.contains (boardFolderPath boardName ++ "/Note " ++ note.id ++ ".md") then
    (st, evs0, note, none)
  else
    ({ st with
       files := st.files
         ++ [(boardFolderPath boardName ++ "/Note " ++ note.id ++ ".md",
              constructFileContent note)] },
     evs0 ++ [Ev.create (boardFolderPath boardName ++ "/Note " ++ note.id ++ ".md")],
     { note with filepath := boardFolderPath boardName ++ "/Note " ++ note.id ++ ".md" },
     some (boardFolderPath boardName ++ "/Note " ++ note.id ++ ".md"))

/-- `saveNote` (WhiteboardFileManager.ts:556): ensure the board folder exists
(`getAbstractFileByPath` finds nothing at its path), then resolve the target
and write (`saveNoteCore`). -/
def saveNote (st0 : St) (boardName : String) (note : Note) :
    St × List Ev × Note × Option String :=
  if (lookupFile st0 (boardFolderPath boardName)).isNone
      && !st0.folders.contains (boardFolderPath boardName) then
    saveNoteCore { st0 with folders := st0.folders ++ [boardFolderPath boardName] }
      [Ev.mkdir (boardFolderPath boardName)] boardName note
  else
    saveNoteCore st0 [] boardName note

/-- Accumulator for the save fold: evolving state, emitted events, updated
notes, and the set (list) of file paths actively backing a note. -/
structure SaveAcc where
  st : St
  evs : List Ev
  outNotes : List Note
  active : List String

/-- One note of the save loop: `saveNote`, recording the returned path. -/
def saveBoardStep (boardName : String) (acc : SaveAcc) (note : Note) : SaveAcc :=
  let r := saveNote acc.st boardName note
  { st := r.1
    evs := acc.evs ++ r.2.1
    outNotes := acc.outNotes ++ [r.2.2.1]
    active := match r.2.2.2 with
              | some p => acc.active ++ [p]
              | none => acc.active }

/-- The markdown files directly inside a board folder (`folder.children`
filtered to `TFile` with extension `md`), in listing order. -/
def mdChildPaths (st : St) (folderPath : String) : List String :=
  if st.folders.contains folderPath then
    (st.files.filter (fun e => isDirectChild folderPath e.1 && extOf e.1 == "md")).map (·.1)
  else []

/-- Does the file at `p` currently carry the sticky-note type marker in its
cached front-matter? -/
def isStickyFile (st : St) (p : String) : Bool :=
  match getCache st p with
  | some fm => fm.type == some "sticky-note".data
  | none => false

/-- The orphan set of one save: snapshot files backing no saved note that
carry the sticky-note marker (checked against the post-save state `st1`). -/
def orphansOf (st1 : St) (active existing : List String) : List String :=
  existing.filter (fun p => !active.contains p && isStickyFile st1 p)

/-- Move the named paths from the active file set to trash. -/
def applyTrash (st1 : St) (orphans : List String) : St :=
  { st1 with
    files := st1.files.filter (fun e => !orphans.contains e.1)
    trashed := st1.trashed ++ st1.files.filter (fun e => orphans.contains e.1) }

/-- `saveBoard` (WhiteboardFileManager.ts:452): snapshot the board folder's
markdown children, save every note (chunked and awaited in the source; the
fold is the canonical linearisation), then move to trash every snapshot file
that backs no saved note and carries the sticky-note marker.  Per-note
errors are caught inside `saveNote`/the chunk loop and only suppress that
note's path registration.  (`configManager.updateConfig` writes the settings
side index, not the vault.) -/
def saveBoard (st0 : St) (boardName : String) (notes : List Note) :
    St × List Ev × List Note :=
  let acc := notes.foldl (saveBoardStep boardName) ⟨st0, [], [], []⟩
  let orphans := orphansOf acc.st acc.active (mdChildPaths st0 (boardFolderPath boardName))
  (applyTrash acc.st orphans, acc.evs ++ orphans.map Ev.trash, acc.outNotes)

/-- `loadBoard` (WhiteboardFileManager.ts:423): parse every markdown child of
the board folder, keeping the successfully parsed notes. -/
def loadBoard (st : St) (boardName : String) : List Ev × List Note :=
  let folderPath := boardFolderPath boardName
  let results := (mdChildPaths st folderPath).map
    (fun p => parseNoteFile p ((lookupFile st p).getD ""))
  ((results.map (·.1)).flatten, results.filterMap (·.2))

/-- Is `p` inside the directory `folder` (at any depth)? -/
def isUnder (folder p : String) : Bool :=
  (stripPre (folder.data ++ ['/']) p.data).isSome

/-- `deleteBoard` (WhiteboardFileManager.ts:403): move the board directory to
trash; `false` when the directory does not exist. -/
def deleteBoard (st : St) (boardName : String) : St × Bool :=
  let folderPath := boardFolderPath boardName
  if st.folders.contains folderPath then
    ({ st with
       folders := st.folders.filter (· ≠ folderPath)
       files := st.files.filter (fun e => !isUnder folderPath e.1)
       trashed := st.trashed ++ st.files.filter (fun e => isUnder folderPath e.1) },
     true)
  else (st, false)

/-- The delete call site in `src/views/dashboard.tsx` (`handleDeleteBoard`,
lines 101–141): whether `manager.deleteBoard` is reached, given the current
board list and whether the user confirms the modal.  Deleting the last
remaining board is rejected before the modal opens. -/
def dashboardInvokesDelete (fileList : List String) (confirmed : Bool) : Bool :=
  if fileList.length ≤ 1 then false else confirmed

/-- The delete call site in `src/notes/index.tsx` (`onDeleteBoard`, lines
186–216): the callback invokes `manager.deleteBoard(name)` directly, with no
board-count guard and no confirmation dialog. -/
def widgetInvokesDelete (fileList : List String) (name : String) : Bool := true

/-! ## Legacy migration (`LegacyMigrationManager.ts`)

`checkAndMigrate` scans a target folder (the reserved `Whiteboards` legacy
folder when present, otherwise the base folder) for `.json` files, skipping
`data.json` and files already recorded in the persisted migrated list.  Each
qualifying file is read and `JSON.parse`d; the parse is modelled from the
spec over a canonical grammar: a bare array of note objects, or an object
with a `notes` array and an optional `wallStyle` string.  Unparseable content
or a missing `notes` field skips the file (the former without marking it
migrated). -/

/-- Parse a canonical JSON string body (no escapes) after the opening quote:
the characters up to the closing quote. -/
def takeJStr : List Char → Option (List Char × List Char)
  | [] => none
  | '"' :: rest => some ([], rest)
  | '\\' :: _ => none
  | c :: rest => (takeJStr (id rest)).map (fun sr => (c :: sr.1, sr.2))

/-- Parse a canonical quoted JSON string. -/
def parseJStr (cs : List Char) : Option (List Char × List Char) :=
  match cs with
  | '"' :: rest => takeJStr rest
  | _ => none

/-- Parse a run of decimal digits (at least one). -/
def takeDigits (cs : List Char) : List Char × List Char :=
  match cs with
  | c :: rest =>
    match dVal c with
    | some _ =>
      let r := takeDigits rest
      (c :: r.1, r.2)
    | none => ([], cs)
  | [] => ([], [])

/-- Parse a canonical JSON number (optional sign, digits, optional fraction)
as a rational. -/
def parseJNum (cs : List Char) : Option (ℚ × List Char) :=
  let signed := cs.head? = some '-'
  let body := if signed then cs.tail else cs
  let d1 := takeDigits body
  match parseNatChars d1.1 with
  | none => none
  | some whole =>
    match d1.2 with
    | '.' :: frest =>
      let d2 := takeDigits frest
      match parseNatChars d2.1 with
      | none => none
      | some frac =>
        let mag := mkRat (whole * 10 ^ d2.1.length + frac) (10 ^ d2.1.length)
        some (if signed then -mag else mag, d2.2)
    | rest => some ((if signed then -(whole : ℚ) else (whole : ℚ)), rest)

/-- Parse a canonical JSON integer. -/
def parseJInt (cs : List Char) : Option (ℤ × List Char) :=
  let signed := cs.head? = some '-'
  let body := if signed then cs.tail else cs
  let d1 := takeDigits body
  match parseNatChars d1.1 with
  | none => none
  | some whole => some ((if signed then -(whole : ℤ) else (whole : ℤ)), d1.2)

/-- Expect a literal token. -/
def expectTok (lit : List Char) (cs : List Char) : Option (List Char) :=
  stripPre lit cs

/-- Expect a literal token followed by a quoted string. -/
def pStr (key : String) (cs : List Char) : Option (List Char × List Char) :=
  match expectTok key.data cs with
  | some cs1 => parseJStr cs1
  | none => none

/-- Expect a literal token followed by a JSON number. -/
def pNum (key : String) (cs : List Char) : Option (ℚ × List Char) :=
  match expectTok key.data cs with
  | some cs1 => parseJNum cs1
  | none => none

/-- Expect a literal token followed by a JSON integer. -/
def pInt (key : String) (cs : List Char) : Option (ℤ × List Char) :=
  match expectTok key.data cs with
  | some cs1 => parseJInt cs1
  | none => none

/-- Parse one canonical legacy note object: braces around the note fields in
a fixed order (id, x, y, color, size, shape, style, bgStyle, rotation,
pinType, pinPos, content), strings quoted without escapes. -/
def parseLegacyNote (cs : List Char) : Option (Note × List Char) :=
  match pStr "\x7b\"id\":" cs with
  | none => none
  | some (idv, cs1) =>
  match pNum ",\"x\":" cs1 with
  | none => none
  | some (xv, cs2) =>
  match pNum ",\"y\":" cs2 with
  | none => none
  | some (yv, cs3) =>
  match pStr ",\"color\":" cs3 with
  | none => none
  | some (cv, cs4) =>
  match pStr ",\"size\":" cs4 with
  | none => none
  | some (sv, cs5) =>
  match pStr ",\"shape\":" cs5 with
  | none => none
  | some (shv, cs6) =>
  match pStr ",\"style\":" cs6 with
  | none => none
  | some (tv, cs7) =>
  match pStr ",\"bgStyle\":" cs7 with
  | none => none
  | some (bv, cs8) =>
  match pInt ",\"rotation\":" cs8 with
  | none => none
  | some (rv, cs9) =>
  match pStr ",\"pinType\":" cs9 with
  | none => none
  | some (pv, cs10) =>
  match pStr ",\"pinPos\":" cs10 with
  | none => none
  | some (qv, cs11) =>
  match pStr ",\"content\":" cs11 with
  | none => none
  | some (ov, cs12) =>
  match expectTok "\x7d".data cs12 with
  | none => none
  | some cs13 =>
    some
      ({ id := ⟨idv⟩, x := xv, y := yv, color := ⟨cv⟩, size := ⟨sv⟩, shape := ⟨shv⟩
         style := ⟨tv⟩, bgStyle := ⟨bv⟩, rotation := rv, pinType := ⟨pv⟩
         pinPos := ⟨qv⟩, content := ⟨ov⟩, filepath := "", originalRotation := none },
       cs13)

/-- Parse the elements of a canonical note array after `[`, with fuel. -/
def parseNoteArrayF : Nat → List Char → Option (List Note × List Char)
  | 0, _ => none
  | _ + 1, ']' :: rest => some ([], rest)
  | fuel + 1, cs =>
    match parseLegacyNote cs with
    | none => none
    | some (n, cs1) =>
      match cs1 with
      | ',' :: rest =>
        match parseNoteArrayF fuel rest with
        | none => none
        | some (ns, cs2) => some (n :: ns, cs2)
      | ']' :: rest => some ([n], rest)
      | _ => none

/-- Parse a canonical `[...]` note array. -/
def parseNoteArray (cs : List Char) : Option (List Note × List Char) :=
  match cs with
  | '[' :: rest => parseNoteArrayF (rest.length + 1) rest
  | _ => none

/-- `JSON.parse` of a legacy board file plus the source's shape handling
(LegacyMigrationManager.ts:116–122), modelled from the spec over the
canonical grammar: `none` = parse failure (caught, file retried next run);
`some (none, w)` = parsed but no `notes` array (file skipped);
`some (some notes, w)` = notes to migrate with wall style `w`
(default `'dots'`). -/
def parseLegacy (s : String) : Option (Option (List Note) × String) :=
  match s.data with
  | '[' :: rest =>
    match parseNoteArrayF (rest.length + 1) rest with
    | some (ns, []) => some (some ns, "dots")
    | _ => none
  | '\x7b' :: rest =>
    match expectTok "\"notes\":".data rest with
    | some cs1 =>
      match parseNoteArray cs1 with
      | some (ns, rest2) =>
        match rest2 with
        | '\x7d' :: [] => some (some ns, "dots")
        | _ =>
          match expectTok ",\"wallStyle\":".data rest2 with
          | some cs2 =>
            match parseJStr cs2 with
            | some (w, '\x7d' :: []) => some (some ns, ⟨w⟩)
            | _ => none
          | none => none
      | none => none
    | none =>
      match expectTok "\"wallStyle\":".data rest with
      | some cs2 =>
        match parseJStr cs2 with
        | some (w, '\x7d' :: []) => some (none, ⟨w⟩)
        | _ => none
      | none => none
  | _ => none

/-- One accumulator step of the migration's per-note save loop
(LegacyMigrationManager.ts:138–147): force an empty storage locator so the
note is always created fresh, then reuse `saveNote`. -/
def migrateNoteStep (boardName : String) (a : St × List Ev) (note : Note) :
    St × List Ev :=
  let r := saveNote a.1 boardName { note with filepath := "" }
  (r.1, a.2 ++ r.2.1)

/-- Migrate one qualifying legacy file (the body of the `try` in
LegacyMigrationManager.ts:114–156): read and parse it; on parse failure or a
missing `notes` array, stop (the error is caught / the file is skipped).
Otherwise create the board folder if needed, record the wall style in the
settings side index (not vault I/O), save every note, append the file's name
to the persisted migrated list, and rename the original in place with the
`.migrated` suffix. -/
def migrateFile (st : St) (p : String) : St × List Ev :=
  let content := (lookupFile st p).getD ""
  match parseLegacy content with
  | none => (st, [Ev.read p])
  | some (none, _) => (st, [Ev.read p])
  | some (some notes, _wallStyle) =>
    let boardName := basename p
    let newBoardPath := basePath ++ "/" ++ boardName
    let exists0 := st.folders.contains newBoardPath || (lookupFile st newBoardPath).isSome
    let st1 := if exists0 then st else { st with folders := st.folders ++ [newBoardPath] }
    let evs1 : List Ev := if exists0 then [] else [Ev.mkdir newBoardPath]
    -- configManager.updateConfig newBoardPath { wallStyle } : settings write
    let r := notes.foldl (migrateNoteStep boardName) (st1, evs1)
    let st2 := { r.1 with migrated := r.1.migrated ++ [fileName p] }
    -- plugin.saveSettings() : settings write
    let st3 := { st2 with
      files := st2.files.map (fun e => if e.1 = p then (p ++ ".migrated", e.2) else e) }
    (st3, Ev.read p :: r.2 ++ [Ev.rename p (p ++ ".migrated")])

/-- `checkAndMigrate` (LegacyMigrationManager.ts:92–161): pick the reserved
legacy folder when it exists, else the base folder; if the target is a
folder, scan its direct `.json` children (snapshot), skipping `data.json`
and files already recorded in the persisted migrated list; migrate the rest
in order, each behind its own catch. -/
def checkAndMigrate (st : St) : St × List Ev :=
  let legacyPath := basePath ++ "/Whiteboards"
  let legacyExists := st.folders.contains legacyPath || (lookupFile st legacyPath).isSome
  let targetPath := if legacyExists then legacyPath else basePath
  if st.folders.contains targetPath then
    let jsonFiles := (st.files.filter
      (fun e => isDirectChild targetPath e.1 && extOf e.1 == "json")).map (·.1)
    jsonFiles.foldl
      (fun (a : St × List Ev) p =>
        let name := fileName p
        if name = "data.json" then a
        else if a.1.migrated.contains name then a
        else
          let r := migrateFile a.1 p
          (r.1, a.2 ++ r.2))
      (st, [])
  else (st, [])

/-- Association-list lookup (the list-level core of `lookupFile`). -/
def findVal (l : List (String × String)) (p : String) : Option String :=
  (l.find? (fun e => e.1 = p)).map (·.2)

/-- The file path `saveNote` resolves for a note, against a given state: the
note's storage locator when it still names a file, else the synthesized
`Note <id>.md` path in the board folder. -/
def noteTarget (st : St) (boardName : String) (n : Note) : String :=
  if n.filepath ≠ "" ∧ (lookupFile st n.filepath).isSome then n.filepath
  else boardFolderPath boardName ++ "/Note " ++ n.id ++ ".md"

/-- Per-note side conditions for a well-behaved save, stated against the
pre-save state: the storage locator is empty or still names a file, and the
resolved target is not occupied by a folder. -/
def goodNote (st0 : St) (b : String) (n : Note) : Prop :=
  (n.filepath = "" ∨ (lookupFile st0 n.filepath).isSome = true) ∧
  st0.folders.contains (noteTarget st0 b n) = false

instance goodNoteDec (st0 : St) (b : String) (n : Note) : Decidable (goodNote st0 b n) := by
  unfold goodNote
  infer_instance

/-! ## Concrete fixtures -/

/-- A representative valid note with fractional coordinates. -/
def n0 : Note :=
  { id := "n-1", x := mkRat 53 5, y := mkRat (-1) 2, color := "yellow", size := "m"
    shape := "square", style := "realistic", bgStyle := "solid", rotation := -3
    pinType := "none", pinPos := "center", content := "hello", filepath := ""
    originalRotation := none }

/-- A vault holding the base folder and an empty board folder `B`. -/
def st0 : St :=
  { files := [], folders := [basePath, "StickyNotes/B"], trashed := [], migrated := [] }

/-- The note `n0` with untrimmed body text and its storage locator set. -/
def nWs : Note := { n0 with content := " hi", filepath := "StickyNotes/B/Note n-1.md" }

/-- The board folder of `st0` already holding an unrelated user file at the
note's target path. -/
def st6 : St := { st0 with files := [("StickyNotes/B/Note n-1.md", "# user text")] }

/-- A marked note file with no `id` header line. -/
def c10content : String := "---\ntype: sticky-note\ncolor: blue\n---\nbody"

/-- Is this event a full-content `vault.read`? -/
def isReadEv : Ev → Bool
  | Ev.read _ => true
  | _ => false

/-- A fixed point of the first save: the target file already encodes `n0`. -/
def nC1 : Note := { n0 with filepath := "StickyNotes/B/Note n-1.md" }

/-- The vault after saving board `B` holding `n0` once. -/
def stC1 : St :=
  { st0 with files := [("StickyNotes/B/Note n-1.md", constructFileContent n0)] }

/-- The note `n0` with whitespace-wrapped body text. -/
def nA3 : Note := { n0 with content := " a " }

/-- The board folder of `st0` holding an unrelated unmarked markdown file
away from any note target. -/
def stC4 : St := { st0 with files := [("StickyNotes/B/readme.md", "# notes")] }

/-- The orphan fixture: a sticky-marked file in board `B` backing no
in-memory note. -/
def orphanContent : String :=
  constructFileContent { n0 with id := "zz", content := "orphan" }

def st5 : St := { st0 with files := [("StickyNotes/B/old.md", orphanContent)] }

/-- One file of the migration scan: skip `data.json` and already-recorded
names, otherwise migrate (names the fold body of `checkAndMigrate`). -/
def chkStep (a : St × List Ev) (p : String) : St × List Ev :=
  let name := fileName p
  if name = "data.json" then a
  else if a.1.migrated.contains name then a
  else
    let r := migrateFile a.1 p
    (r.1, a.2 ++ r.2)

/-- A note whose synthesized target path is occupied by a folder. -/
def nBad : Note := { n0 with id := "bb" }

/-- Board `B` with a folder squatting on `nBad`'s synthesized path. -/
def st7 : St :=
  { files := [], folders := [basePath, "StickyNotes/B", "StickyNotes/B/Note bb.md"],
    trashed := [], migrated := [] }

/-- A canonical legacy board export (one note, a wall style). -/
def ideasJson : String :=
  "\x7b\"notes\":[\x7b\"id\":\"1\",\"x\":10.6,\"y\":5.2,\"color\":\"yellow\",\"size\":\"m\",\"shape\":\"square\",\"style\":\"realistic\",\"bgStyle\":\"solid\",\"rotation\":0,\"pinType\":\"none\",\"pinPos\":\"center\",\"content\":\"hi\"\x7d],\"wallStyle\":\"grid\"\x7d"

/-- A base folder holding one unparseable and one well-formed legacy file. -/
def stm7 : St :=
  { files := [("StickyNotes/Bad.json", "oops"), ("StickyNotes/Ideas.json", ideasJson)],
    folders := [basePath], trashed := [], migrated := [] }

/-- The board-folder creation and note fold that `migrateFile` performs on a
fresh, parseable legacy file. -/
def migFolded (st : St) (p : String) (notes : List Note) : St × List Ev :=
  notes.foldl (migrateNoteStep (basename p))
    ({ st with folders := st.folders ++ [basePath ++ "/" ++ basename p] },
     [Ev.mkdir (basePath ++ "/" ++ basename p)])

/-- The note stored in `ideasJson`. -/
def note8 : Note :=
  { id := "1", x := mkRat 53 5, y := mkRat 26 5, color := "yellow", size := "m"
    shape := "square", style := "realistic", bgStyle := "solid", rotation := 0
    pinType := "none", pinPos := "center", content := "hi", filepath := ""
    originalRotation := none }

/-- A base folder holding exactly one legacy board export. -/
def stm8 : St :=
  { files := [("StickyNotes/Ideas.json", ideasJson)], folders := [basePath],
    trashed := [], migrated := [] }

theorem dVal_dChar {d : Nat} (h : d < 10) : dVal (dChar d) = some d := by
  interval_cases d <;> decide

theorem dChar_ne_dash {d : Nat} (h : d < 10) : dChar d ≠ '-' := by
  interval_cases d <;> decide

theorem dChar_ne_nl {d : Nat} (h : d < 10) : dChar d ≠ '\n' := by
  interval_cases d <;> decide

theorem natCharsF_fuel : ∀ (n f₁ f₂ : Nat), n < f₁ → n < f₂ →
    natCharsF f₁ n = natCharsF f₂ n := by
  intro n
  induction n using Nat.strong_induction_on with
  | _ n ih =>
    intro f₁ f₂ h₁ h₂
    match f₁, f₂ with
    | fa + 1, fb + 1 =>
      simp only [natCharsF]
      by_cases h : n < 10
      · simp [h]
      · have hd : n / 10 < n := Nat.div_lt_self (by omega) (by omega)
        simp only [h, if_false]
        rw [ih (n / 10) hd fa fb (by omega) (by omega)]

theorem natChars_eq_natCharsF {n f : Nat} (h : n < f) :
    natChars n = natCharsF f n :=
  natCharsF_fuel n (n + 1) f (by omega) h

/-- Unfolding of `natChars` for `n ≥ 10`. -/
theorem natChars_ge10 {n : Nat} (h : ¬ n < 10) :
    natChars n = natChars (n / 10) ++ [dChar (n % 10)] := by
  have hd : n / 10 < n := Nat.div_lt_self (by omega) (by omega)
  have : natChars n = natCharsF (n + 1) n := rfl
  rw [this]
  simp only [natCharsF, h, if_false]
  rw [← natCharsF_fuel (n / 10) (n / 10 + 1) n (by omega) (by omega)]
  rfl

theorem natChars_lt10 {n : Nat} (h : n < 10) : natChars n = [dChar n] := by
  simp [natChars, natCharsF, h]

/-- Every character rendered by `natChars` is a decimal digit. -/
theorem natChars_digits : ∀ n : Nat, ∀ c ∈ natChars n, ∃ d, d < 10 ∧ c = dChar d := by
  intro n
  induction n using Nat.strong_induction_on with
  | _ n ih =>
    intro c hc
    by_cases h : n < 10
    · rw [natChars_lt10 h] at hc
      simp at hc
      exact ⟨n, h, hc⟩
    · rw [natChars_ge10 h] at hc
      rcases List.mem_append.1 hc with h1 | h2
      · exact ih (n / 10) (Nat.div_lt_self (by omega) (by omega)) c h1
      · simp at h2
        exact ⟨n % 10, by omega, h2⟩

theorem natChars_ne_nil (n : Nat) : natChars n ≠ [] := by
  by_cases h : n < 10
  · rw [natChars_lt10 h]; simp
  · rw [natChars_ge10 h]; simp

/-- The decimal renderer and parser are mutually inverse on `Nat`. -/
theorem parseNat_natChars : ∀ n : Nat,
    (natChars n).foldl parseNatAux (some 0) = some n := by
  have key : ∀ n : Nat, ∀ a : Nat,
      (natChars n).foldl parseNatAux (some a) = some (a * 10 ^ (natChars n).length + n) := by
    intro n
    induction n using Nat.strong_induction_on with
    | _ n ih =>
      intro a
      by_cases h : n < 10
      · rw [natChars_lt10 h]
        simp [parseNatAux, dVal_dChar h]
        omega
      · rw [natChars_ge10 h]
        rw [List.foldl_append]
        rw [ih (n / 10) (Nat.div_lt_self (by omega) (by omega)) a]
        simp [parseNatAux, dVal_dChar (show n % 10 < 10 by omega)]
        have hmod : 10 * (a * 10 ^ (natChars (n / 10)).length + n / 10) + n % 10
            = a * (10 ^ (natChars (n / 10)).length * 10) + n := by
          have := Nat.div_add_mod n 10
          ring_nf
          omega
        rw [hmod]
        ring_nf
  intro n
  have := key n 0
  simpa using this

theorem parseNatChars_natChars (n : Nat) : parseNatChars (natChars n) = some n := by
  have hne := natChars_ne_nil n
  have hp := parseNat_natChars n
  unfold parseNatChars
  match hcs : natChars n with
  | [] => exact absurd hcs hne
  | c :: cs => rw [hcs] at hp; exact hp

theorem natChars_head_ne_dash (n : Nat) :
    ∀ c cs, natChars n = c :: cs → c ≠ '-' := by
  intro c cs hc
  have : c ∈ natChars n := by rw [hc]; simp
  obtain ⟨d, hd, rfl⟩ := natChars_digits n c this
  exact dChar_ne_dash hd

/-- The integer renderer and parser are mutually inverse. -/
theorem parseIntChars_intRepr (k : ℤ) : parseIntChars (intRepr k) = some k := by
  unfold intRepr
  by_cases h : k < 0
  · simp only [h, if_true]
    show (if '-' = '-' then (parseNatChars (natChars (-k).toNat)).map (fun n => -(n : ℤ))
          else (parseNatChars ('-' :: natChars (-k).toNat)).map (fun n => (n : ℤ))) = some k
    rw [if_pos rfl, parseNatChars_natChars]
    simp
    omega
  · simp only [h, if_false]
    match hcs : natChars k.toNat with
    | [] => exact absurd hcs (natChars_ne_nil _)
    | c :: cs =>
      have hcne : c ≠ '-' := natChars_head_ne_dash _ c cs hcs
      have hp : parseNatChars (c :: cs) = some k.toNat := by
        rw [← hcs]; exact parseNatChars_natChars _
      show (if c = '-' then _ else (parseNatChars (c :: cs)).map (fun n => (n : ℤ))) = some k
      rw [if_neg hcne, hp]
      simp
      omega

theorem intRepr_no_nl (k : ℤ) : '\n' ∉ intRepr k := by
  unfold intRepr
  by_cases h : k < 0
  · rw [if_pos h]
    intro hmem
    rcases List.mem_cons.1 hmem with h1 | h2
    · exact absurd h1 (by decide)
    · obtain ⟨d, hd, hc⟩ := natChars_digits _ _ h2
      exact dChar_ne_nl hd hc.symm
  · rw [if_neg h]
    intro h2
    obtain ⟨d, hd, hc⟩ := natChars_digits _ _ h2
    exact dChar_ne_nl hd hc.symm

theorem chSplit_ne_nil (sep : Char) : ∀ cs, chSplit sep cs ≠ [] := by
  intro cs
  induction cs with
  | nil => simp [chSplit]
  | cons c rest ih =>
    simp only [chSplit]
    by_cases h : c = sep
    · simp [h]
    · simp only [h, if_false]
      match hrec : chSplit sep rest with
      | [] => simp
      | l :: ls => simp

theorem chSplit_no_sep {sep : Char} : ∀ {l : List Char}, sep ∉ l →
    chSplit sep l = [l] := by
  intro l
  induction l with
  | nil => intro _; rfl
  | cons c rest ih =>
    intro h
    have hc : c ≠ sep := fun hh => h (by simp [hh])
    have hr : sep ∉ rest := fun hh => h (by simp [hh])
    simp only [chSplit, hc, if_false]
    rw [ih hr]

theorem chSplit_cons_ne {sep c : Char} (hc : c ≠ sep) (cs : List Char) :
    chSplit sep (c :: cs) =
      match chSplit sep cs with
      | l :: ls => (c :: l) :: ls
      | [] => [[c]] := by
  simp only [chSplit, hc, if_false]

theorem chSplit_append_sep {sep : Char} {l : List Char} (h : sep ∉ l) (rest : List Char) :
    chSplit sep (l ++ sep :: rest) = l :: chSplit sep rest := by
  induction l with
  | nil => simp [chSplit]
  | cons c t ih =>
    have hc : c ≠ sep := fun hh => h (by simp [hh])
    have ht : sep ∉ t := fun hh => h (by simp [hh])
    rw [List.cons_append, chSplit_cons_ne hc, ih ht]

theorem chUnlines_cons {l : List Char} {ls : List (List Char)} (h : ls ≠ []) :
    chUnlines (l :: ls) = l ++ '\n' :: chUnlines ls := by
  match ls with
  | [] => exact absurd rfl h
  | x :: xs => rfl

/-- Splitting on newlines undoes joining, up to the trailing segment (which may
itself contain newlines). -/
theorem chSplit_chUnlines_concat :
    ∀ (ls : List (List Char)) (last : List Char),
      (∀ l ∈ ls, '\n' ∉ l) →
      chSplit '\n' (chUnlines (ls ++ [last])) = ls ++ chSplit '\n' last := by
  intro ls
  induction ls with
  | nil => intro last _; rfl
  | cons l t ih =>
    intro last h
    have hl : '\n' ∉ l := h l (by simp)
    have ht : ∀ x ∈ t, '\n' ∉ x := fun x hx => h x (by simp [hx])
    rw [List.cons_append, chUnlines_cons (by simp)]
    rw [chSplit_append_sep hl]
    rw [ih last ht]
    rfl

theorem trimChars_cons_nl (cs : List Char) : trimChars ('\n' :: cs) = trimChars cs := by
  simp [trimChars, List.dropWhile, isWs]

theorem unescapeQ_cons_ne {c : Char} (hc : c ≠ '\\') (cs : List Char) :
    unescapeQ (c :: cs) = c :: unescapeQ cs := by
  unfold unescapeQ
  split
  · rename_i heq
    injection heq with h1 _
    exact absurd h1 hc
  · rename_i heq
    injection heq with h1 h2
    rw [h1, h2]
    rw [unescapeQ.eq_def]
  · rename_i heq
    exact absurd heq (by simp)

theorem unescapeQ_escapeQ : ∀ {cs : List Char}, '\\' ∉ cs →
    unescapeQ (escapeQ cs) = cs := by
  intro cs
  induction cs with
  | nil => intro _; rfl
  | cons c rest ih =>
    intro h
    have hc : c ≠ '\\' := fun hh => h (by simp [hh])
    have hr : '\\' ∉ rest := fun hh => h (by simp [hh])
    simp only [escapeQ]
    by_cases hq : c = '"'
    · subst hq
      rw [if_pos rfl]
      show '"' :: unescapeQ (escapeQ rest) = _
      rw [ih hr]
    · rw [if_neg hq, unescapeQ_cons_ne hc, ih hr]

theorem escapeQ_no_nl : ∀ {cs : List Char}, '\n' ∉ cs → '\n' ∉ escapeQ cs := by
  intro cs
  induction cs with
  | nil => intro _ h; simp [escapeQ] at h
  | cons c rest ih =>
    intro h hmem
    have hc : c ≠ '\n' := fun hh => h (by simp [hh])
    have hr : '\n' ∉ rest := fun hh => h (by simp [hh])
    simp only [escapeQ] at hmem
    by_cases hq : c = '"'
    · rw [if_pos hq] at hmem
      rcases List.mem_cons.1 hmem with h1 | h2
      · exact absurd h1.symm (by decide)
      · rcases List.mem_cons.1 h2 with h3 | h4
        · exact absurd h3.symm (by decide)
        · exact ih hr h4
    · rw [if_neg hq] at hmem
      rcases List.mem_cons.1 hmem with h1 | h2
      · exact hc h1.symm
      · exact ih hr h2

theorem splitKV_cons_ne {c : Char} (hc : c ≠ ':') (cs : List Char) :
    splitKV (c :: cs) = (splitKV cs).map (fun kv => (c :: kv.1, kv.2)) := by
  unfold splitKV
  split
  · rename_i heq
    exact absurd heq (by simp)
  · rename_i heq
    injection heq with h1 _
    exact absurd h1 hc
  · rename_i heq
    injection heq with h1 h2
    rw [h1, h2]
    rw [splitKV.eq_def]
    rfl

theorem splitKV_mk : ∀ {k : List Char}, ':' ∉ k → ∀ v,
    splitKV (k ++ ':' :: ' ' :: v) = some (k, v) := by
  intro k
  induction k with
  | nil => intro _ v; rfl
  | cons c t ih =>
    intro h v
    have hc : c ≠ ':' := fun hh => h (by simp [hh])
    have ht : ':' ∉ t := fun hh => h (by simp [hh])
    rw [List.cons_append, splitKV_cons_ne hc, ih ht v]
    rfl

theorem stripPre_append (a : List Char) : ∀ b, stripPre a (a ++ b) = some b := by
  induction a with
  | nil => intro b; rfl
  | cons c t ih => intro b; simp [stripPre, ih]

theorem getLastD_concat (l : List (List Char)) (x : List Char) :
    (l ++ [x]).getLastD [] = x := by
  simp [List.getLastD_eq_getLast?]

theorem chSplit_cons_sep (sep : Char) (cs : List Char) :
    chSplit sep (sep :: cs) = [] :: chSplit sep cs := by
  simp [chSplit]

theorem chSplit_append_len {sep : Char} : ∀ (u v : List Char), sep ∉ v →
    (chSplit sep (u ++ v)).length = (chSplit sep u).length := by
  intro u
  induction u with
  | nil => intro v hv; rw [List.nil_append, chSplit_no_sep hv]; rfl
  | cons d s ihd =>
    intro v hv
    by_cases hd : d = sep
    · subst hd
      rw [List.cons_append, chSplit_cons_sep, chSplit_cons_sep]
      simp only [List.length_cons]
      rw [ihd v hv]
    · rw [List.cons_append, chSplit_cons_ne hd, chSplit_cons_ne hd]
      match ha : chSplit sep (s ++ v), hb2 : chSplit sep s with
      | [], _ => exact absurd ha (chSplit_ne_nil sep (s ++ v))
      | _, [] => exact absurd hb2 (chSplit_ne_nil sep s)
      | p :: ps, q :: qs =>
        have := ihd v hv
        rw [ha, hb2] at this
        simpa using this

/-- Appending a separator-free suffix only extends the last chunk. -/
theorem lastChunk_append {sep : Char} (a b : List Char) (hb : sep ∉ b) :
    (chSplit sep (a ++ b)).getLastD [] = (chSplit sep a).getLastD [] ++ b := by
  induction a with
  | nil => rw [List.nil_append, chSplit_no_sep hb]; rfl
  | cons c t ih =>
    by_cases hc : c = sep
    · subst hc
      rw [List.cons_append, chSplit_cons_sep, chSplit_cons_sep]
      rw [List.getLastD_cons, List.getLastD_cons]
      match h1 : chSplit c (t ++ b), h2 : chSplit c t with
      | [], _ => exact absurd h1 (chSplit_ne_nil c (t ++ b))
      | _, [] => exact absurd h2 (chSplit_ne_nil c t)
      | x :: xs, y :: ys =>
        have hih := ih
        rw [h1, h2] at hih
        simpa using hih
    · rw [List.cons_append, chSplit_cons_ne hc, chSplit_cons_ne hc]
      match h1 : chSplit sep (t ++ b), h2 : chSplit sep t with
      | [], _ => exact absurd h1 (chSplit_ne_nil sep (t ++ b))
      | _, [] => exact absurd h2 (chSplit_ne_nil sep t)
      | x :: xs, y :: ys =>
        have hih := ih
        rw [h1, h2] at hih
        have hlen := chSplit_append_len t b hb
        rw [h1, h2] at hlen
        simp only [List.length_cons] at hlen
        match xs, ys with
        | [], [] =>
          simp only [List.getLastD_cons, List.getLastD_nil] at hih ⊢
          rw [hih]
          rfl
        | [], y2 :: ys2 => simp at hlen
        | x2 :: xs2, [] => simp at hlen
        | x2 :: xs2, y2 :: ys2 =>
          simp only [List.getLastD_cons] at hih ⊢
          exact hih

theorem chSplit_len2 {sep : Char} : ∀ {l : List Char}, sep ∈ l →
    2 ≤ (chSplit sep l).length := by
  intro l
  induction l with
  | nil => intro h; simp at h
  | cons c rest ih =>
    intro h
    by_cases hc : c = sep
    · subst hc
      rw [chSplit_cons_sep]
      have := chSplit_ne_nil c rest
      match hr : chSplit c rest with
      | [] => exact absurd hr this
      | x :: xs => simp
    · have hr : sep ∈ rest := by
        rcases List.mem_cons.1 h with h1 | h2
        · exact absurd h1.symm hc
        · exact h2
      rw [chSplit_cons_ne hc]
      match hm : chSplit sep rest with
      | [] => exact absurd hm (chSplit_ne_nil sep rest)
      | x :: xs =>
        have := ih hr
        rw [hm] at this
        simpa using this

theorem chSplit_append_sep_last {sep : Char} :
    ∀ (a : List Char) {v : List Char}, sep ∉ v →
      (chSplit sep (a ++ sep :: v)).getLastD [] = v := by
  intro a
  induction a with
  | nil =>
    intro v hv
    rw [List.nil_append, chSplit_cons_sep, chSplit_no_sep hv]
    rfl
  | cons c t ih =>
    intro v hv
    by_cases hc : c = sep
    · subst hc
      rw [List.cons_append, chSplit_cons_sep, List.getLastD_cons]
      exact ih hv
    · rw [List.cons_append, chSplit_cons_ne hc]
      have hmem : sep ∈ t ++ sep :: v := by simp
      have hlen := chSplit_len2 hmem
      match h1 : chSplit sep (t ++ sep :: v) with
      | [] => exact absurd h1 (chSplit_ne_nil sep _)
      | [x] => rw [h1] at hlen; simp at hlen
      | x :: x2 :: xs =>
        have hih := ih hv
        rw [h1] at hih
        simp only [List.getLastD_cons] at hih ⊢
        exact hih

/-- The extension of a path formed by appending a literal dotted,
dot-free, slash-free extension. -/
theorem extOf_dot_suffix (p : String) (e : List Char)
    (he1 : '/' ∉ e) (he2 : '.' ∉ e) :
    extOf ⟨p.data ++ '.' :: e⟩ = ⟨e⟩ := by
  unfold extOf
  have hnoslash : '/' ∉ '.' :: e := by
    intro h
    rcases List.mem_cons.1 h with h1 | h2
    · exact absurd h1.symm (by decide)
    · exact he1 h2
  show (⟨extChars (lastChunk '/' (p.data ++ '.' :: e))⟩ : String) = ⟨e⟩
  unfold lastChunk
  rw [lastChunk_append p.data ('.' :: e) hnoslash]
  unfold extChars
  have hdot : '.' ∈ (chSplit '/' p.data).getLastD [] ++ '.' :: e := by simp
  have hlen := @chSplit_len2 '.' _ hdot
  simp only [ge_iff_le, hlen, if_pos]
  rw [chSplit_append_sep_last _ he2]

/-- Direct-child test on an explicitly concatenated path. -/
theorem isDirectChild_concat (folder : String) (rest : List Char) :
    isDirectChild folder ⟨folder.data ++ '/' :: rest⟩
      = (!rest.isEmpty && !rest.contains '/') := by
  unfold isDirectChild
  show (match stripPre (folder.data ++ ['/']) (folder.data ++ '/' :: rest) with
        | some r => !r.isEmpty && !r.contains '/'
        | none => false) = _
  rw [show folder.data ++ '/' :: rest = (folder.data ++ ['/']) ++ rest by simp]
  rw [stripPre_append]

theorem unquoteVal_escape {s : List Char} (h : '\\' ∉ s) :
    unquoteVal ('"' :: (escapeQ s ++ ['"'])) = s := by
  have h1 : escapeQ s ++ ['"'] ≠ [] := by simp
  have h2 : (escapeQ s ++ ['"']).getLast? = some '"' := by
    simp [List.getLast?_concat]
  show (if (escapeQ s ++ ['"'] ≠ [] ∧ (escapeQ s ++ ['"']).getLast? = some '"')
        then unescapeQ (escapeQ s ++ ['"']).dropLast
        else '"' :: (escapeQ s ++ ['"'])) = s
  rw [if_pos ⟨h1, h2⟩]
  rw [List.dropLast_concat]
  exact unescapeQ_escapeQ h

theorem takeToClose_mk : ∀ {fs : List (List Char)}, (∀ l ∈ fs, l ≠ "---".data) →
    ∀ rest, takeToClose (fs ++ "---".data :: rest) = some fs := by
  intro fs
  induction fs with
  | nil => intro _ rest; simp [takeToClose]
  | cons l t ih =>
    intro h rest
    have hl : l ≠ "---".data := h l (by simp)
    have ht : ∀ x ∈ t, x ≠ "---".data := fun x hx => h x (by simp [hx])
    rw [List.cons_append]
    show takeToClose (l :: (t ++ "---".data :: rest)) = some (l :: t)
    unfold takeToClose
    rw [if_neg hl, ih ht rest]
    rfl

/-- A header line starting with a non-dash key is never the closing delimiter. -/
theorem fieldLine_ne_close {c : Char} (hc : c ≠ '-') (k v : List Char) :
    fieldLine (c :: k) v ≠ "---".data := by
  unfold fieldLine
  intro h
  rw [List.cons_append] at h
  have : c = '-' := by
    have := congrArg (List.head? ·) h
    simpa using this
  exact hc this

theorem stepFM_type (fm : FM) (v : List Char) :
    stepFM fm (fieldLine "type".data v) = { fm with type := some v } := by
  unfold stepFM fieldLine
  rw [splitKV_mk (by decide)]
  rfl

theorem stepFM_id (fm : FM) (v : List Char) :
    stepFM fm (fieldLine "id".data v) = { fm with id := some (unquoteVal v) } := by
  unfold stepFM fieldLine
  rw [splitKV_mk (by decide)]
  rfl

theorem stepFM_x (fm : FM) (v : List Char) :
    stepFM fm (fieldLine "x".data v) = { fm with x := parseIntChars v } := by
  unfold stepFM fieldLine
  rw [splitKV_mk (by decide)]
  rfl

theorem stepFM_y (fm : FM) (v : List Char) :
    stepFM fm (fieldLine "y".data v) = { fm with y := parseIntChars v } := by
  unfold stepFM fieldLine
  rw [splitKV_mk (by decide)]
  rfl

theorem stepFM_color (fm : FM) (v : List Char) :
    stepFM fm (fieldLine "color".data v) = { fm with color := some v } := by
  unfold stepFM fieldLine
  rw [splitKV_mk (by decide)]
  rfl

theorem stepFM_size (fm : FM) (v : List Char) :
    stepFM fm (fieldLine "size".data v) = { fm with size := some v } := by
  unfold stepFM fieldLine
  rw [splitKV_mk (by decide)]
  rfl

theorem stepFM_shape (fm : FM) (v : List Char) :
    stepFM fm (fieldLine "shape".data v) = { fm with shape := some v } := by
  unfold stepFM fieldLine
  rw [splitKV_mk (by decide)]
  rfl

theorem stepFM_style (fm : FM) (v : List Char) :
    stepFM fm (fieldLine "style".data v) = { fm with style := some v } := by
  unfold stepFM fieldLine
  rw [splitKV_mk (by decide)]
  rfl

theorem stepFM_bgStyle (fm : FM) (v : List Char) :
    stepFM fm (fieldLine "bgStyle".data v) = { fm with bgStyle := some v } := by
  unfold stepFM fieldLine
  rw [splitKV_mk (by decide)]
  rfl

theorem stepFM_rotation (fm : FM) (v : List Char) :
    stepFM fm (fieldLine "rotation".data v) = { fm with rotation := parseIntChars v } := by
  unfold stepFM fieldLine
  rw [splitKV_mk (by decide)]
  rfl

theorem stepFM_pinType (fm : FM) (v : List Char) :
    stepFM fm (fieldLine "pinType".data v) = { fm with pinType := some v } := by
  unfold stepFM fieldLine
  rw [splitKV_mk (by decide)]
  rfl

theorem stepFM_pinPos (fm : FM) (v : List Char) :
    stepFM fm (fieldLine "pinPos".data v) = { fm with pinPos := some v } := by
  unfold stepFM fieldLine
  rw [splitKV_mk (by decide)]
  rfl

theorem stepFM_originalRotation (fm : FM) (v : List Char) :
    stepFM fm (fieldLine "originalRotation".data v)
      = { fm with originalRotation := parseIntChars v } := by
  unfold stepFM fieldLine
  rw [splitKV_mk (by decide)]
  rfl

theorem buildFM_headerLines (n : Note) :
    buildFM (headerLines n) =
      { type := some "sticky-note".data
        id := some (unquoteVal ('"' :: (escapeQ n.id.data ++ ['"'])))
        x := parseIntChars (intRepr (jsRound n.x))
        y := parseIntChars (intRepr (jsRound n.y))
        color := some n.color.data
        size := some n.size.data
        shape := some n.shape.data
        style := some n.style.data
        bgStyle := some n.bgStyle.data
        rotation := parseIntChars (intRepr n.rotation)
        pinType := some n.pinType.data
        pinPos := some n.pinPos.data
        originalRotation :=
          match n.originalRotation with
          | some r => parseIntChars (intRepr r)
          | none => none } := by
  unfold buildFM headerLines
  cases horig : n.originalRotation with
  | none => rfl
  | some r => rfl

theorem validNote_parts {n : Note} (hv : validNote n = true) :
    (n.id.data ≠ [] ∧ '\n' ∉ n.id.data ∧ '\\' ∉ n.id.data ∧ '/' ∉ n.id.data) ∧
    (n.color.data ≠ [] ∧ '\n' ∉ n.color.data) ∧
    (n.size.data ≠ [] ∧ '\n' ∉ n.size.data) ∧
    (n.shape.data ≠ [] ∧ '\n' ∉ n.shape.data) ∧
    (n.style.data ≠ [] ∧ '\n' ∉ n.style.data) ∧
    (n.bgStyle.data ≠ [] ∧ '\n' ∉ n.bgStyle.data) ∧
    (n.pinType.data ≠ [] ∧ '\n' ∉ n.pinType.data) ∧
    (n.pinPos.data ≠ [] ∧ '\n' ∉ n.pinPos.data) := by
  simp only [validNote, validId, validStr, Bool.and_eq_true, Bool.not_eq_true',
    decide_eq_false_iff_not, List.isEmpty_eq_false] at hv
  tauto

/-- No emitted header line contains a newline. -/
theorem headerLines_no_nl {n : Note} (hv : validNote n = true) :
    ∀ l ∈ headerLines n, '\n' ∉ l := by
  obtain ⟨⟨_, hid, hidb, _⟩, ⟨_, hco⟩, ⟨_, hsz⟩, ⟨_, hsh⟩, ⟨_, hst⟩, ⟨_, hbg⟩,
    ⟨_, hpt⟩, ⟨_, hpp⟩⟩ := validNote_parts hv
  have hkey : ∀ (k v : List Char), '\n' ∉ k → '\n' ∉ v → '\n' ∉ fieldLine k v := by
    intro k v hk hv2 hmem
    unfold fieldLine at hmem
    rcases List.mem_append.1 hmem with h1 | h2
    · exact hk h1
    · rcases List.mem_cons.1 h2 with h3 | h4
      · exact absurd h3.symm (by decide)
      · rcases List.mem_cons.1 h4 with h5 | h6
        · exact absurd h5.symm (by decide)
        · exact hv2 h6
  intro l hl
  unfold headerLines at hl
  rcases List.mem_append.1 hl with hmem | hrest
  · simp only [List.mem_cons, List.not_mem_nil, or_false] at hmem
    rcases hmem with rfl | rfl | rfl | rfl | rfl | rfl | rfl | rfl | rfl | rfl | rfl | rfl
    · exact hkey _ _ (by decide) (by decide)
    · refine hkey _ _ (by decide) ?_
      intro hm
      rcases List.mem_cons.1 hm with h1 | h2
      · exact absurd h1.symm (by decide)
      · rcases List.mem_append.1 h2 with h3 | h4
        · exact escapeQ_no_nl hid h3
        · simp at h4
    · exact hkey _ _ (by decide) (intRepr_no_nl _)
    · exact hkey _ _ (by decide) (intRepr_no_nl _)
    · exact hkey _ _ (by decide) hco
    · exact hkey _ _ (by decide) hsz
    · exact hkey _ _ (by decide) hsh
    · exact hkey _ _ (by decide) hst
    · exact hkey _ _ (by decide) hbg
    · exact hkey _ _ (by decide) (intRepr_no_nl _)
    · exact hkey _ _ (by decide) hpt
    · exact hkey _ _ (by decide) hpp
  · cases horig : n.originalRotation with
    | none => rw [horig] at hrest; simp at hrest
    | some r =>
      rw [horig] at hrest
      simp only [List.mem_singleton] at hrest
      subst hrest
      exact hkey _ _ (by decide) (intRepr_no_nl _)

/-- No emitted header line is the closing delimiter line. -/
theorem headerLines_ne_close (n : Note) :
    ∀ l ∈ headerLines n, l ≠ "---".data := by
  intro l hl
  unfold headerLines at hl
  rcases List.mem_append.1 hl with hmem | hrest
  · simp only [List.mem_cons, List.not_mem_nil, or_false] at hmem
    rcases hmem with rfl | rfl | rfl | rfl | rfl | rfl | rfl | rfl | rfl | rfl | rfl | rfl <;>
      exact fieldLine_ne_close (by decide) _ _
  · cases horig : n.originalRotation with
    | none => rw [horig] at hrest; simp at hrest
    | some r =>
      rw [horig] at hrest
      simp only [List.mem_singleton] at hrest
      subst hrest
      exact fieldLine_ne_close (by decide) _ _

/-- The metadata index's view of a freshly encoded note is exactly
`fmOfNote`. -/
theorem parseFM_encode {n : Note} (hv : validNote n = true) :
    parseFM (constructFileContent n) = some (fmOfNote n) := by
  obtain ⟨⟨hidne, hidnl, hidb, _⟩, _⟩ := validNote_parts hv
  unfold parseFM constructFileContent
  show parseFMlines (chSplit '\n' (chUnlines (noteLines n))) = _
  have hsh : noteLines n
      = ("---".data :: (headerLines n ++ ["---".data, []])) ++ [n.content.data] := by
    unfold noteLines
    simp
  rw [hsh]
  rw [chSplit_chUnlines_concat _ _ ?hnl]
  case hnl =>
    intro l hl
    rcases List.mem_cons.1 hl with rfl | h2
    · decide
    · rcases List.mem_append.1 h2 with h3 | h4
      · exact headerLines_no_nl hv l h3
      · rcases List.mem_cons.1 h4 with rfl | h5
        · decide
        · simp at h5
          subst h5
          simp
  rw [List.cons_append]
  simp only [parseFMlines, if_true]
  have hshape : (headerLines n ++ ["---".data, []]) ++ chSplit '\n' n.content.data
      = headerLines n ++ ("---".data :: ([] :: chSplit '\n' n.content.data)) := by
    simp
  rw [hshape, takeToClose_mk (headerLines_ne_close n) _]
  show some (buildFM (headerLines n)) = some (fmOfNote n)
  rw [buildFM_headerLines]
  unfold fmOfNote
  rw [unquoteVal_escape hidb, parseIntChars_intRepr, parseIntChars_intRepr,
    parseIntChars_intRepr]
  cases horig : n.originalRotation with
  | none => rfl
  | some r => simp only [parseIntChars_intRepr]

theorem afterClose_cons_ne {c : Char} (hc : c ≠ '\n') (cs : List Char) :
    afterClose (c :: cs) = afterClose cs := by
  unfold afterClose
  split
  · rename_i heq
    injection heq with h1 _
    exact absurd h1 hc
  · rename_i heq
    injection heq with h1 h2
    rw [h2, ← afterClose.eq_def]
  · rename_i heq
    exact absurd heq (by simp)

theorem afterClose_skip {l : List Char} (hl : '\n' ∉ l) (cs : List Char) :
    afterClose (l ++ cs) = afterClose cs := by
  induction l with
  | nil => rfl
  | cons c t ih =>
    have hc : c ≠ '\n' := fun hh => hl (by simp [hh])
    have ht : '\n' ∉ t := fun hh => hl (by simp [hh])
    rw [List.cons_append, afterClose_cons_ne hc, ih ht]

theorem afterClose_nl_ne {c : Char} (hc : c ≠ '-') (cs : List Char) :
    afterClose ('\n' :: c :: cs) = afterClose (c :: cs) := by
  unfold afterClose
  split
  · rename_i heq
    injection heq with _ h2
    injection h2 with h3 _
    exact absurd h3 hc
  · rename_i heq
    injection heq with _ h2
    rw [h2, ← afterClose.eq_def]
  · rename_i heq
    exact absurd heq (by simp)

theorem chUnlines_append {a b : List (List Char)} (ha : a ≠ []) (hb : b ≠ []) :
    chUnlines (a ++ b) = chUnlines a ++ '\n' :: chUnlines b := by
  induction a with
  | nil => exact absurd rfl ha
  | cons l t ih =>
    match t with
    | [] =>
      rw [show ([l] : List (List Char)) ++ b = l :: b from rfl, chUnlines_cons hb]
      rfl
    | x :: xs =>
      rw [List.cons_append, chUnlines_cons (by simp), chUnlines_cons (by simp)]
      rw [ih (by simp)]
      simp

/-- Scanning a block of nonempty, newline-free, non-dash-initial lines never
triggers the close pattern: the scan passes to whatever follows the block's
final newline. -/
theorem afterClose_lines :
    ∀ (lines : List (List Char)),
      (∀ l ∈ lines, l ≠ [] ∧ '\n' ∉ l ∧ l.head? ≠ some '-') →
      ∀ tail, afterClose (chUnlines lines ++ '\n' :: '-' :: '-' :: '-' :: tail)
        = some (dropOneNl tail) := by
  intro lines
  induction lines with
  | nil => intro _ tail; rfl
  | cons l t ih =>
    intro h tail
    obtain ⟨hne, hnl, hhd⟩ := h l (by simp)
    have ht : ∀ x ∈ t, x ≠ [] ∧ '\n' ∉ x ∧ x.head? ≠ some '-' :=
      fun x hx => h x (by simp [hx])
    match t with
    | [] =>
      show afterClose (chUnlines [l] ++ '\n' :: '-' :: '-' :: '-' :: tail) = _
      rw [show chUnlines [l] = l from rfl]
      rw [afterClose_skip hnl]
      rfl
    | m :: ms =>
      rw [chUnlines_cons (by simp)]
      obtain ⟨hmne, hmnl, hmhd⟩ := ht m (by simp)
      obtain ⟨c, mr, rfl⟩ := List.exists_cons_of_ne_nil hmne
      have hc : c ≠ '-' := fun hcc => hmhd (by simp [hcc])
      have hzs : ∃ zs, chUnlines ((c :: mr) :: ms) = c :: zs := by
        match ms with
        | [] => exact ⟨mr, rfl⟩
        | y :: ys =>
          refine ⟨mr ++ '\n' :: chUnlines (y :: ys), ?_⟩
          rw [chUnlines_cons (by simp)]
          rfl
      obtain ⟨zs, hzs⟩ := hzs
      rw [List.append_assoc, afterClose_skip hnl, hzs]
      rw [show ('\n' :: c :: zs ++ '\n' :: '-' :: '-' :: '-' :: tail)
            = '\n' :: c :: (zs ++ '\n' :: '-' :: '-' :: '-' :: tail) from by simp]
      rw [afterClose_nl_ne hc]
      have hih := ih ht tail
      rw [hzs] at hih
      simpa using hih

/-- Every emitted header line is a `key: value` line with a non-dash key. -/
theorem headerLines_form (n : Note) :
    ∀ l ∈ headerLines n, ∃ c k v, l = fieldLine (c :: k) v ∧ c ≠ '-' := by
  intro l hl
  unfold headerLines at hl
  rcases List.mem_append.1 hl with hmem | hrest
  · simp only [List.mem_cons, List.not_mem_nil, or_false] at hmem
    rcases hmem with rfl | rfl | rfl | rfl | rfl | rfl | rfl | rfl | rfl | rfl | rfl | rfl
    · exact ⟨'t', _, _, rfl, by decide⟩
    · exact ⟨'i', _, _, rfl, by decide⟩
    · exact ⟨'x', _, _, rfl, by decide⟩
    · exact ⟨'y', _, _, rfl, by decide⟩
    · exact ⟨'c', _, _, rfl, by decide⟩
    · exact ⟨'s', _, _, rfl, by decide⟩
    · exact ⟨'s', _, _, rfl, by decide⟩
    · exact ⟨'s', _, _, rfl, by decide⟩
    · exact ⟨'b', _, _, rfl, by decide⟩
    · exact ⟨'r', _, _, rfl, by decide⟩
    · exact ⟨'p', _, _, rfl, by decide⟩
    · exact ⟨'p', _, _, rfl, by decide⟩
  · cases horig : n.originalRotation with
    | none => rw [horig] at hrest; simp at hrest
    | some r =>
      rw [horig] at hrest
      simp only [List.mem_singleton] at hrest
      subst hrest
      exact ⟨'o', _, _, rfl, by decide⟩

/-- The facts `afterClose_lines` needs about the emitted header block. -/
theorem headerLines_block {n : Note} (hv : validNote n = true) :
    ∀ l ∈ headerLines n, l ≠ [] ∧ '\n' ∉ l ∧ l.head? ≠ some '-' := by
  intro l hl
  obtain ⟨c, k, v, rfl, hc⟩ := headerLines_form n l hl
  refine ⟨by simp [fieldLine], headerLines_no_nl hv _ hl, ?_⟩
  simp [fieldLine, hc]

theorem stripFM_open (rest : List Char) :
    stripFMChars ('-' :: '-' :: '-' :: '\n' :: rest)
      = match afterClose rest with
        | some r => r
        | none => '-' :: '-' :: '-' :: '\n' :: rest := rfl

/-- Removing the front-matter block from a freshly encoded note leaves one
newline followed by the body verbatim. -/
theorem stripFM_encode {n : Note} (hv : validNote n = true) :
    stripFMChars (constructFileContent n).data = '\n' :: n.content.data := by
  show stripFMChars (chUnlines (noteLines n)) = _
  unfold noteLines
  rw [List.cons_append]
  rw [chUnlines_cons (show headerLines n ++ ["---".data, [], n.content.data] ≠ [] by simp)]
  rw [show ("---".data ++ '\n' :: chUnlines (headerLines n ++ ["---".data, [], n.content.data]))
        = '-' :: '-' :: '-' :: '\n' :: chUnlines (headerLines n ++ ["---".data, [], n.content.data])
      from rfl]
  rw [stripFM_open]
  have hhne : headerLines n ≠ [] := by
    unfold headerLines
    simp
  rw [chUnlines_append hhne (by simp)]
  rw [show chUnlines ["---".data, [], n.content.data]
        = '-' :: '-' :: '-' :: '\n' :: '\n' :: n.content.data from rfl]
  rw [afterClose_lines (headerLines n) (headerLines_block hv) ('\n' :: '\n' :: n.content.data)]
  rfl

/-- The cached view of a freshly encoded note never reports a change. -/
theorem hasMetadataChanged_fmOfNote (n : Note) :
    hasMetadataChanged (some (fmOfNote n)) n = false := by
  simp [hasMetadataChanged, fmOfNote]

/-- Decoding a freshly encoded valid note recovers the note, up to integer
rounding of the coordinates and trimming of the body. -/
theorem parseNoteFile_encode {n : Note} (hv : validNote n = true) (p : String) :
    parseNoteFile p (constructFileContent n)
      = ([Ev.read p], some (roundTripNote p n)) := by
  obtain ⟨⟨hidne, _, _, _⟩, ⟨hcone, _⟩, ⟨hszne, _⟩, ⟨hshne, _⟩, ⟨hstne, _⟩,
    ⟨hbgne, _⟩, ⟨hptne, _⟩, ⟨hppne, _⟩⟩ := validNote_parts hv
  unfold parseNoteFile
  rw [parseFM_encode hv]
  show (if (fmOfNote n).type = some "sticky-note".data then _ else _) = _
  have hstr : ∀ (s : String), s.data ≠ [] → ∀ d, strOr (some s.data) d = s.data := by
    intro s hs d
    simp only [strOr]
    rw [if_neg (by simpa using hs)]
  split
  · refine Prod.ext rfl ?_
    show some _ = some (roundTripNote p n)
    congr 1
    unfold roundTripNote fmOfNote
    rw [stripFM_encode hv, trimChars_cons_nl]
    simp only [hstr n.id hidne, hstr n.color hcone, hstr n.size hszne,
      hstr n.shape hshne, hstr n.style hstne, hstr n.bgStyle hbgne,
      hstr n.pinType hptne, hstr n.pinPos hppne, Option.getD_some]
  · rename_i hfalse
    exact absurd rfl hfalse

/-! ## Basic facts about the vault operations -/

/-- `String.mk s.data = s`. -/
theorem strEta (s : String) : (⟨s.data⟩ : String) = s := by
  cases s
  rfl

theorem lookupFile_eq_findVal (st : St) (p : String) :
    lookupFile st p = findVal st.files p := rfl

theorem findVal_nil (p : String) : findVal [] p = none := rfl

theorem findVal_cons_self {e : String × String} {p : String} (l : List (String × String))
    (h : e.1 = p) : findVal (e :: l) p = some e.2 := by
  unfold findVal
  rw [List.find?_cons_of_pos _ (by simpa using h)]
  rfl

theorem findVal_cons_ne {e : String × String} {p : String} (l : List (String × String))
    (h : e.1 ≠ p) : findVal (e :: l) p = findVal l p := by
  unfold findVal
  rw [List.find?_cons_of_neg _ (by simpa using h)]

theorem findVal_map_set_self : ∀ (l : List (String × String)) (f c : String),
    (findVal l f).isSome →
    findVal (l.map (fun e => if e.1 = f then (f, c) else e)) f = some c := by
  intro l f c h
  induction l with
  | nil => simp [findVal] at h
  | cons e t ih =>
    by_cases he : e.1 = f
    · simp only [List.map_cons, if_pos he]
      exact findVal_cons_self _ rfl
    · simp only [List.map_cons, if_neg he]
      rw [findVal_cons_ne _ he]
      rw [findVal_cons_ne _ he] at h
      exact ih h

theorem findVal_map_set_ne : ∀ (l : List (String × String)) (f q c : String),
    q ≠ f →
    findVal (l.map (fun e => if e.1 = f then (f, c) else e)) q = findVal l q := by
  intro l f q c h
  induction l with
  | nil => rfl
  | cons e t ih =>
    by_cases he : e.1 = f
    · simp only [List.map_cons, if_pos he]
      rw [findVal_cons_ne _ (fun hh => h hh.symm), findVal_cons_ne _ (by rw [he]; exact fun hh => h hh.symm)]
      exact ih
    · simp only [List.map_cons, if_neg he]
      by_cases heq : e.1 = q
      · rw [findVal_cons_self _ heq, findVal_cons_self _ heq]
      · rw [findVal_cons_ne _ heq, findVal_cons_ne _ heq]
        exact ih

theorem findVal_append_one_self {l : List (String × String)} {f : String} (c : String)
    (h : findVal l f = none) : findVal (l ++ [(f, c)]) f = some c := by
  induction l with
  | nil => exact findVal_cons_self _ rfl
  | cons e t ih =>
    by_cases he : e.1 = f
    · rw [findVal_cons_self _ he] at h
      simp at h
    · rw [findVal_cons_ne _ he] at h
      rw [List.cons_append, findVal_cons_ne _ he]
      exact ih h

theorem findVal_append_one_ne {l : List (String × String)} {f q : String} (c : String)
    (h : q ≠ f) : findVal (l ++ [(f, c)]) q = findVal l q := by
  induction l with
  | nil =>
    rw [List.nil_append, findVal_cons_ne _ (fun hh => h hh.symm)]
  | cons e t ih =>
    by_cases he : e.1 = q
    · rw [List.cons_append, findVal_cons_self _ he, findVal_cons_self _ he]
    · rw [List.cons_append, findVal_cons_ne _ he, findVal_cons_ne _ he]
      exact ih

theorem map_set_keys (l : List (String × String)) (f c : String) :
    (l.map (fun e => if e.1 = f then (f, c) else e)).map (·.1) = l.map (·.1) := by
  induction l with
  | nil => rfl
  | cons e t ih =>
    by_cases he : e.1 = f
    · simp only [List.map_cons, if_pos he]
      rw [ih, he]
    · simp only [List.map_cons, if_neg he, ih]

/-- `writeExisting` written as a plain conditional (definitional). -/
theorem writeExisting_eq (st : St) (evs0 : List Ev) (n : Note) (f : String) :
    writeExisting st evs0 n f =
      if hasMetadataChanged (getCache st f) n then
        (modifyFile st f (constructFileContent n), evs0 ++ [Ev.modify f],
         { n with filepath := f }, some f)
      else if (lookupFile st f).getD "" ≠ constructFileContent n then
        (modifyFile st f (constructFileContent n), evs0 ++ [Ev.read f, Ev.modify f],
         { n with filepath := f }, some f)
      else (st, evs0 ++ [Ev.read f], { n with filepath := f }, some f) := rfl

/-- `saveNote` under the normal conditions (board folder present, storage
locator empty or valid, target path not occupied by a folder): it returns the
resolved target, leaves the target holding exactly the fresh encoding,
touches no other file, and emits only read/modify/create events on the
target. -/
theorem saveNote_good {st : St} {b : String} {n : Note}
    (hfold : st.folders.contains (boardFolderPath b) = true)
    (hfp : n.filepath = "" ∨ (lookupFile st n.filepath).isSome)
    (hnf : st.folders.contains (noteTarget st b n) = false) :
    (saveNote st b n).2.2.2 = some (noteTarget st b n) ∧
    (saveNote st b n).2.2.1 = { n with filepath := noteTarget st b n } ∧
    lookupFile (saveNote st b n).1 (noteTarget st b n)
      = some (constructFileContent n) ∧
    (∀ q, q ≠ noteTarget st b n →
      lookupFile (saveNote st b n).1 q = lookupFile st q) ∧
    (saveNote st b n).1.folders = st.folders ∧
    (saveNote st b n).1.trashed = st.trashed ∧
    (saveNote st b n).1.migrated = st.migrated ∧
    ((saveNote st b n).1.files.map (·.1) = st.files.map (·.1) ∨
     ((saveNote st b n).1.files.map (·.1) = st.files.map (·.1) ++ [noteTarget st b n] ∧
      lookupFile st (noteTarget st b n) = none)) ∧
    (∀ e ∈ (saveNote st b n).2.1,
      e = Ev.read (noteTarget st b n) ∨ e = Ev.modify (noteTarget st b n) ∨
      e = Ev.create (noteTarget st b n)) := by
  have hwe : ∀ (f : String), (lookupFile st f).isSome →
      (writeExisting st [] n f).2.2.2 = some f ∧
      (writeExisting st [] n f).2.2.1 = { n with filepath := f } ∧
      lookupFile (writeExisting st [] n f).1 f = some (constructFileContent n) ∧
      (∀ q, q ≠ f → lookupFile (writeExisting st [] n f).1 q = lookupFile st q) ∧
      (writeExisting st [] n f).1.folders = st.folders ∧
      (writeExisting st [] n f).1.trashed = st.trashed ∧
      (writeExisting st [] n f).1.migrated = st.migrated ∧
      ((writeExisting st [] n f).1.files.map (·.1) = st.files.map (·.1) ∨
       ((writeExisting st [] n f).1.files.map (·.1) = st.files.map (·.1) ++ [f] ∧
        lookupFile st f = none)) ∧
      (∀ e ∈ (writeExisting st [] n f).2.1,
        e = Ev.read f ∨ e = Ev.modify f ∨ e = Ev.create f) := by
    intro f hsome
    rw [writeExisting_eq]
    by_cases hdirty : hasMetadataChanged (getCache st f) n = true
    · rw [if_pos hdirty]
      refine ⟨rfl, rfl, ?_, ?_, rfl, rfl, rfl, ?_, ?_⟩
      · rw [lookupFile_eq_findVal]
        exact findVal_map_set_self _ _ _ hsome
      · intro q hq
        rw [lookupFile_eq_findVal, lookupFile_eq_findVal]
        exact findVal_map_set_ne _ _ _ _ hq
      · left
        exact map_set_keys _ _ _
      · intro e he
        simp only [List.nil_append, List.mem_singleton] at he
        subst he
        right; left; rfl
    · rw [if_neg hdirty]
      by_cases hcur : (lookupFile st f).getD "" ≠ constructFileContent n
      · rw [if_pos hcur]
        refine ⟨rfl, rfl, ?_, ?_, rfl, rfl, rfl, ?_, ?_⟩
        · rw [lookupFile_eq_findVal]
          exact findVal_map_set_self _ _ _ hsome
        · intro q hq
          rw [lookupFile_eq_findVal, lookupFile_eq_findVal]
          exact findVal_map_set_ne _ _ _ _ hq
        · left
          exact map_set_keys _ _ _
        · intro e he
          simp only [List.nil_append, List.mem_cons, List.mem_singleton,
            List.not_mem_nil, or_false] at he
          rcases he with rfl | rfl
          · left; rfl
          · right; left; rfl
      · rw [if_neg hcur]
        rw [Classical.not_not] at hcur
        refine ⟨rfl, rfl, ?_, fun q _ => rfl, rfl, rfl, rfl, Or.inl rfl, ?_⟩
        · rw [← hcur]
          match hl : lookupFile st f with
          | some c => rfl
          | none => rw [hl] at hsome; simp at hsome
        · intro e he
          simp only [List.nil_append, List.mem_singleton] at he
          subst he
          left; rfl
  have hmk : ((lookupFile st (boardFolderPath b)).isNone
      && !st.folders.contains (boardFolderPath b)) = false := by
    rw [hfold]
    simp
  have hsn : saveNote st b n = saveNoteCore st [] b n := by
    unfold saveNote
    rw [hmk]
    simp
  rw [hsn]
  unfold saveNoteCore
  by_cases hloc : n.filepath ≠ "" ∧ (lookupFile st n.filepath).isSome
  · have htgt : noteTarget st b n = n.filepath := by
      unfold noteTarget
      rw [if_pos hloc]
    rw [if_pos hloc, htgt]
    exact hwe n.filepath hloc.2
  · have htgt : noteTarget st b n = boardFolderPath b ++ "/Note " ++ n.id ++ ".md" := by
      unfold noteTarget
      rw [if_neg hloc]
    rw [if_neg hloc]
    by_cases hsyn : (lookupFile st (boardFolderPath b ++ "/Note " ++ n.id ++ ".md")).isSome
    · rw [if_pos hsyn, htgt]
      exact hwe _ hsyn
    · rw [if_neg hsyn]
      rw [htgt] at hnf
      rw [if_neg (by rw [hnf]; exact fun h => Bool.false_ne_true h)]
      have hnone : lookupFile st (boardFolderPath b ++ "/Note " ++ n.id ++ ".md") = none := by
        match hl : lookupFile st (boardFolderPath b ++ "/Note " ++ n.id ++ ".md") with
        | some c => rw [hl] at hsyn; simp at hsyn
        | none => rfl
      refine ⟨by rw [htgt], by rw [htgt], ?_, ?_, rfl, rfl, rfl, ?_, ?_⟩
      · rw [htgt, lookupFile_eq_findVal]
        show findVal (st.files ++ [(boardFolderPath b ++ "/Note " ++ n.id ++ ".md",
          constructFileContent n)]) _ = _
        exact findVal_append_one_self _ (by rw [lookupFile_eq_findVal] at hnone; exact hnone)
      · intro q hq
        rw [htgt] at hq
        rw [lookupFile_eq_findVal, lookupFile_eq_findVal]
        exact findVal_append_one_ne _ hq
      · right
        refine ⟨?_, by rw [htgt]; exact hnone⟩
        rw [htgt]
        simp
      · intro e he
        simp only [List.nil_append, List.mem_singleton] at he
        subst he
        right; right
        rw [htgt]

theorem saveBoard_eq (st0 : St) (b : String) (notes : List Note) :
    saveBoard st0 b notes =
      ((applyTrash (notes.foldl (saveBoardStep b) ⟨st0, [], [], []⟩).st
          (orphansOf (notes.foldl (saveBoardStep b) ⟨st0, [], [], []⟩).st
            (notes.foldl (saveBoardStep b) ⟨st0, [], [], []⟩).active
            (mdChildPaths st0 (boardFolderPath b)))),
       (notes.foldl (saveBoardStep b) ⟨st0, [], [], []⟩).evs
         ++ (orphansOf (notes.foldl (saveBoardStep b) ⟨st0, [], [], []⟩).st
              (notes.foldl (saveBoardStep b) ⟨st0, [], [], []⟩).active
              (mdChildPaths st0 (boardFolderPath b))).map Ev.trash,
       (notes.foldl (saveBoardStep b) ⟨st0, [], [], []⟩).outNotes) := rfl

theorem findVal_isSome_iff (l : List (String × String)) (p : String) :
    (findVal l p).isSome = true ↔ p ∈ l.map (·.1) := by
  induction l with
  | nil => simp [findVal]
  | cons e t ih =>
    by_cases he : e.1 = p
    · rw [findVal_cons_self _ he]
      simp [he]
    · rw [findVal_cons_ne _ he]
      simp only [List.map_cons, List.mem_cons]
      rw [ih]
      constructor
      · exact Or.inr
      · rintro (h1 | h2)
        · exact absurd h1.symm he
        · exact h2

theorem findVal_eq_none_iff (l : List (String × String)) (p : String) :
    findVal l p = none ↔ p ∉ l.map (·.1) := by
  rw [← findVal_isSome_iff]
  match h : findVal l p with
  | some c => simp
  | none => simp

/-- Entry membership with the right key implies a successful lookup. -/
theorem findVal_mem_isSome {l : List (String × String)} {p c : String}
    (h : (p, c) ∈ l) : (findVal l p).isSome = true := by
  rw [findVal_isSome_iff]
  exact List.mem_map.2 ⟨(p, c), h, rfl⟩

/-- With duplicate-free keys, lookup returns exactly the member value. -/
theorem findVal_of_mem_nodup {l : List (String × String)} {p c : String}
    (hnd : (l.map (·.1)).Nodup) (h : (p, c) ∈ l) : findVal l p = some c := by
  induction l with
  | nil => simp at h
  | cons e t ih =>
    rcases List.mem_cons.1 h with rfl | hmem
    · exact findVal_cons_self _ rfl
    · have hke : e.1 ≠ p := by
        intro hh
        have : p ∈ t.map (·.1) := List.mem_map.2 ⟨(p, c), hmem, rfl⟩
        rw [List.map_cons, List.nodup_cons] at hnd
        exact hnd.1 (hh ▸ this)
      rw [findVal_cons_ne _ hke]
      exact ih (by rw [List.map_cons, List.nodup_cons] at hnd; exact hnd.2) hmem

/-- Filtering by key membership: lookup of a non-filtered key is unchanged. -/
theorem findVal_filter_notin {l : List (String × String)} {orphans : List String}
    {q : String} (h : q ∉ orphans) :
    findVal (l.filter (fun e => !orphans.contains e.1)) q = findVal l q := by
  induction l with
  | nil => rfl
  | cons e t ih =>
    by_cases ho : orphans.contains e.1
    · have hne : e.1 ≠ q := by
        intro hh
        rw [hh] at ho
        exact h (by simpa using ho)
      rw [List.filter_cons_of_neg (by simp only [Bool.not_eq_true]; rw [ho]; rfl),
          findVal_cons_ne _ hne]
      exact ih
    · rw [List.filter_cons_of_pos (by simp only [Bool.not_eq_true']; exact Bool.of_not_eq_true ho)]
      by_cases he : e.1 = q
      · rw [findVal_cons_self _ he, findVal_cons_self _ he]
      · rw [findVal_cons_ne _ he, findVal_cons_ne _ he]
        exact ih

/-- Filtering away a key makes its lookup fail. -/
theorem findVal_filter_in {l : List (String × String)} {orphans : List String}
    {q : String} (h : q ∈ orphans) :
    findVal (l.filter (fun e => !orphans.contains e.1)) q = none := by
  rw [findVal_eq_none_iff]
  intro hmem
  obtain ⟨e, he, rfl⟩ := List.mem_map.1 hmem
  have := List.of_mem_filter he
  simp at this
  exact this (by simpa using h)

/-- Membership in a board folder's markdown listing, via lookup. -/
theorem mdChildPaths_mem (st : St) (folderPath p : String) :
    p ∈ mdChildPaths st folderPath ↔
      st.folders.contains folderPath = true ∧ (lookupFile st p).isSome = true ∧
      isDirectChild folderPath p = true ∧ extOf p = "md" := by
  unfold mdChildPaths
  by_cases hf : st.folders.contains folderPath
  · rw [if_pos hf]
    constructor
    · intro h
      obtain ⟨e, he, rfl⟩ := List.mem_map.1 h
      have hmem := List.mem_of_mem_filter he
      have hpred := List.of_mem_filter he
      simp only [Bool.and_eq_true, beq_iff_eq] at hpred
      refine ⟨hf, ?_, hpred.1, hpred.2⟩
      rw [lookupFile_eq_findVal]
      exact findVal_mem_isSome (by rw [show (e.1, e.2) = e from rfl]; exact hmem)
    · rintro ⟨_, hsome, hdc, hext⟩
      rw [lookupFile_eq_findVal, findVal_isSome_iff] at hsome
      obtain ⟨e, he, rfl⟩ := List.mem_map.1 hsome
      refine List.mem_map.2 ⟨e, List.mem_filter.2 ⟨he, ?_⟩, rfl⟩
      simp only [Bool.and_eq_true, beq_iff_eq]
      exact ⟨hdc, hext⟩
  · rw [if_neg hf]
    simp only [List.not_mem_nil, false_iff]
    intro hc
    exact hf hc.1

/-- The markdown listing of a folder has no duplicates when the state's file
keys are duplicate-free. -/
theorem mdChildPaths_nodup {st : St} (folderPath : String)
    (hnd : (st.files.map (·.1)).Nodup) :
    (mdChildPaths st folderPath).Nodup := by
  unfold mdChildPaths
  by_cases hf : st.folders.contains folderPath
  · rw [if_pos hf]
    exact List.Nodup.sublist ((List.filter_sublist _).map _) hnd
  · rw [if_neg hf]
    exact List.nodup_nil

/-- Target resolution is stable under states that preserve file existence. -/
theorem noteTarget_stable {st0 stA : St} {b : String} {n : Note}
    (hfp : n.filepath = "" ∨ (lookupFile st0 n.filepath).isSome = true)
    (hmono : ∀ q, (lookupFile st0 q).isSome = true → (lookupFile stA q).isSome = true) :
    noteTarget stA b n = noteTarget st0 b n := by
  by_cases h0 : n.filepath = ""
  · unfold noteTarget
    rw [if_neg (by simp [h0]), if_neg (by simp [h0])]
  · have hsome : (lookupFile st0 n.filepath).isSome = true := by
      rcases hfp with h1 | h2
      · exact absurd h1 h0
      · exact h2
    unfold noteTarget
    rw [if_pos ⟨h0, hmono _ hsome⟩, if_pos ⟨h0, hsome⟩]

/-- The main save-loop invariant: folding `saveBoardStep` over well-behaved
notes with pairwise distinct targets writes exactly the fresh encodings at
the targets, registers the targets as active in order, leaves every other
file and the folder/trash/settings state untouched, and emits only
read/modify/create events on the targets. -/
theorem saveFold_good {st0 : St} {b : String}
    (hfold : st0.folders.contains (boardFolderPath b) = true) :
    ∀ (notes : List Note) (acc : SaveAcc),
      (∀ n ∈ notes, goodNote st0 b n) →
      (notes.map (noteTarget st0 b)).Nodup →
      acc.st.folders = st0.folders →
      (∀ q, (lookupFile st0 q).isSome = true → (lookupFile acc.st q).isSome = true) →
      (notes.foldl (saveBoardStep b) acc).st.folders = st0.folders ∧
      (notes.foldl (saveBoardStep b) acc).st.trashed = acc.st.trashed ∧
      (notes.foldl (saveBoardStep b) acc).st.migrated = acc.st.migrated ∧
      (∀ q, q ∉ notes.map (noteTarget st0 b) →
        lookupFile (notes.foldl (saveBoardStep b) acc).st q = lookupFile acc.st q) ∧
      (∀ n ∈ notes, lookupFile (notes.foldl (saveBoardStep b) acc).st (noteTarget st0 b n)
        = some (constructFileContent n)) ∧
      (notes.foldl (saveBoardStep b) acc).active
        = acc.active ++ notes.map (noteTarget st0 b) ∧
      (notes.foldl (saveBoardStep b) acc).outNotes
        = acc.outNotes ++ notes.map (fun n => { n with filepath := noteTarget st0 b n }) ∧
      (∀ e ∈ (notes.foldl (saveBoardStep b) acc).evs, e ∈ acc.evs ∨
        ∃ n, n ∈ notes ∧ (e = Ev.read (noteTarget st0 b n)
          ∨ e = Ev.modify (noteTarget st0 b n) ∨ e = Ev.create (noteTarget st0 b n))) ∧
      ((acc.st.files.map (·.1)).Nodup →
        ((notes.foldl (saveBoardStep b) acc).st.files.map (·.1)).Nodup) := by
  intro notes
  induction notes with
  | nil =>
    intro acc _ _ hAccFold _
    refine ⟨hAccFold, rfl, rfl, fun q _ => rfl, by simp, by simp, by simp,
      fun e he => Or.inl he, fun h => h⟩
  | cons n ns ih =>
    intro acc hgood hnd hAccFold hmono
    have hgn : goodNote st0 b n := hgood n (by simp)
    have hgns : ∀ m ∈ ns, goodNote st0 b m := fun m hm => hgood m (by simp [hm])
    have hndT : (ns.map (noteTarget st0 b)).Nodup := by
      rw [List.map_cons, List.nodup_cons] at hnd
      exact hnd.2
    have hhd : noteTarget st0 b n ∉ ns.map (noteTarget st0 b) := by
      rw [List.map_cons, List.nodup_cons] at hnd
      exact hnd.1
    -- the single step
    have hts : noteTarget acc.st b n = noteTarget st0 b n :=
      noteTarget_stable hgn.1 hmono
    have hfoldA : acc.st.folders.contains (boardFolderPath b) = true := by
      rw [hAccFold]; exact hfold
    have hfpA : n.filepath = "" ∨ (lookupFile acc.st n.filepath).isSome = true := by
      rcases hgn.1 with h1 | h2
      · exact Or.inl h1
      · exact Or.inr (hmono _ h2)
    have hnfA : acc.st.folders.contains (noteTarget acc.st b n) = false := by
      rw [hts, hAccFold]; exact hgn.2
    obtain ⟨g1, g2, g3, g4, g5, g6, g7, g8, g9⟩ := saveNote_good hfoldA hfpA hnfA
    rw [hts] at g1 g2 g3 g4 g8 g9
    -- the accumulated step
    set acc' := saveBoardStep b acc n with hacc'
    rw [show List.foldl (saveBoardStep b) acc (n :: ns)
          = List.foldl (saveBoardStep b) acc' ns from rfl]
    have hacc'st : acc'.st = (saveNote acc.st b n).1 := rfl
    have hacc'evs : acc'.evs = acc.evs ++ (saveNote acc.st b n).2.1 := rfl
    have hacc'out : acc'.outNotes = acc.outNotes ++ [(saveNote acc.st b n).2.2.1] := rfl
    have hacc'act : acc'.active = acc.active ++ [noteTarget st0 b n] := by
      show (match (saveNote acc.st b n).2.2.2 with
            | some p => acc.active ++ [p]
            | none => acc.active) = _
      rw [g1]
    have hmono' : ∀ q, (lookupFile st0 q).isSome = true
        → (lookupFile acc'.st q).isSome = true := by
      intro q hq
      by_cases hqt : q = noteTarget st0 b n
      · rw [hacc'st, hqt, g3]
        rfl
      · rw [hacc'st, g4 q hqt]
        exact hmono q hq
    have hAccFold' : acc'.st.folders = st0.folders := by
      rw [hacc'st, g5, hAccFold]
    obtain ⟨i1, i2, i3, i4, i5, i6, i7, i8, i9⟩ :=
      ih acc' hgns hndT hAccFold' hmono'
    refine ⟨i1, ?_, ?_, ?_, ?_, ?_, ?_, ?_, ?_⟩
    · rw [i2, hacc'st, g6]
    · rw [i3, hacc'st, g7]
    · intro q hq
      have hq1 : q ≠ noteTarget st0 b n := fun h => hq (by simp [h])
      have hq2 : q ∉ ns.map (noteTarget st0 b) := fun h => hq (by simp [h])
      rw [i4 q hq2, hacc'st, g4 q hq1]
    · intro m hm
      rcases List.mem_cons.1 hm with rfl | hmem
      · rw [i4 _ hhd, hacc'st, g3]
      · exact i5 m hmem
    · rw [i6, hacc'act, List.map_cons, List.append_assoc]
      rfl
    · rw [i7, hacc'out, g2, List.map_cons, List.append_assoc]
      rfl
    · intro e he
      rcases i8 e he with h1 | ⟨m, hm, hh⟩
      · rw [hacc'evs] at h1
        rcases List.mem_append.1 h1 with h2 | h3
        · exact Or.inl h2
        · exact Or.inr ⟨n, by simp, g9 e h3⟩
      · exact Or.inr ⟨m, by simp [hm], hh⟩
    · intro hndk
      apply i9
      rw [hacc'st]
      rcases g8 with h1 | ⟨h2, h3⟩
      · rw [h1]; exact hndk
      · rw [h2]
        rw [List.nodup_append]
        refine ⟨hndk, by simp, ?_⟩
        intro a ha hb
        simp only [List.mem_singleton] at hb
        subst hb
        rw [lookupFile_eq_findVal, findVal_eq_none_iff] at h3
        exact h3 ha

theorem contains_iff_mem {l : List String} {a : String} :
    l.contains a = true ↔ a ∈ l :=
  ⟨fun h => List.mem_of_elem_eq_true h, fun h => List.elem_eq_true_of_mem h⟩

theorem isStickyFile_congr {st1 st2 : St} {p : String}
    (h : lookupFile st1 p = lookupFile st2 p) :
    isStickyFile st1 p = isStickyFile st2 p := by
  unfold isStickyFile getCache
  rw [h]

/-- The end-to-end behaviour of one well-behaved `saveBoard`: targets hold
the fresh encodings; non-target files survive unless they are sticky-marked
snapshot orphans, which are trashed; folders are untouched; writes happen
only on targets and trashes only on sticky non-targets. -/
theorem saveBoard_good {st0 : St} {b : String} {notes : List Note}
    (hfold : st0.folders.contains (boardFolderPath b) = true)
    (hgood : ∀ n ∈ notes, goodNote st0 b n)
    (hndT : (notes.map (noteTarget st0 b)).Nodup) :
    (∀ n ∈ notes, lookupFile (saveBoard st0 b notes).1 (noteTarget st0 b n)
      = some (constructFileContent n)) ∧
    (∀ q, q ∉ notes.map (noteTarget st0 b) →
      (q ∉ mdChildPaths st0 (boardFolderPath b) ∨ isStickyFile st0 q = false) →
      lookupFile (saveBoard st0 b notes).1 q = lookupFile st0 q) ∧
    (∀ q, q ∉ notes.map (noteTarget st0 b) →
      q ∈ mdChildPaths st0 (boardFolderPath b) → isStickyFile st0 q = true →
      lookupFile (saveBoard st0 b notes).1 q = none ∧
      Ev.trash q ∈ (saveBoard st0 b notes).2.1) ∧
    (saveBoard st0 b notes).1.folders = st0.folders ∧
    (∀ p, Ev.trash p ∈ (saveBoard st0 b notes).2.1 →
      p ∉ notes.map (noteTarget st0 b) ∧ isStickyFile st0 p = true) ∧
    (∀ p, Ev.modify p ∈ (saveBoard st0 b notes).2.1 ∨
          Ev.create p ∈ (saveBoard st0 b notes).2.1 →
      p ∈ notes.map (noteTarget st0 b)) ∧
    ((st0.files.map (·.1)).Nodup →
      ((saveBoard st0 b notes).1.files.map (·.1)).Nodup) ∧
    (saveBoard st0 b notes).2.2
      = notes.map (fun n => { n with filepath := noteTarget st0 b n }) := by
  obtain ⟨i1, i2, i3, i4, i5, i6, i7, i8, i9⟩ :=
    saveFold_good hfold notes ⟨st0, [], [], []⟩ hgood hndT rfl (fun _ h => h)
  rw [saveBoard_eq]
  set A := notes.foldl (saveBoardStep b) ⟨st0, [], [], []⟩ with hA
  set tgts := notes.map (noteTarget st0 b) with htgts
  set existing := mdChildPaths st0 (boardFolderPath b) with hex
  set orphs := orphansOf A.st A.active existing with horphs
  have hact : A.active = tgts := by simpa using i6
  -- orphan membership characterisation
  have horphmem : ∀ p, p ∈ orphs ↔ p ∈ existing ∧ p ∉ tgts ∧ isStickyFile st0 p = true := by
    intro p
    rw [horphs]
    unfold orphansOf
    rw [List.mem_filter]
    constructor
    · rintro ⟨hpe, hcond⟩
      simp only [Bool.and_eq_true, Bool.not_eq_true'] at hcond
      have hnt : p ∉ tgts := by
        intro hmem
        rw [hact] at hcond
        have := (contains_iff_mem (l := tgts) (a := p)).2 hmem
        rw [this] at hcond
        exact absurd hcond.1 (by simp)
      refine ⟨hpe, hnt, ?_⟩
      rw [← hcond.2]
      exact (isStickyFile_congr (i4 p hnt)).symm
    · rintro ⟨hpe, hnt, hsk⟩
      refine ⟨hpe, ?_⟩
      simp only [Bool.and_eq_true, Bool.not_eq_true']
      constructor
      · rw [hact]
        match hcm : tgts.contains p with
        | false => rfl
        | true => exact absurd (contains_iff_mem.1 hcm) hnt
      · rw [isStickyFile_congr (i4 p hnt)]
        exact hsk
  have htgt_not_orph : ∀ n ∈ notes, noteTarget st0 b n ∉ orphs := by
    intro n hn hmem
    exact ((horphmem _).1 hmem).2.1 (List.mem_map.2 ⟨n, hn, rfl⟩)
  refine ⟨?_, ?_, ?_, ?_, ?_, ?_, ?_, ?_⟩
  · intro n hn
    show lookupFile (applyTrash A.st orphs) (noteTarget st0 b n) = _
    unfold applyTrash
    rw [lookupFile_eq_findVal]
    show findVal (A.st.files.filter (fun e => !orphs.contains e.1)) _ = _
    rw [findVal_filter_notin (fun h => htgt_not_orph n hn (contains_iff_mem.1 (by
      exact List.elem_eq_true_of_mem h)))]
    rw [← lookupFile_eq_findVal]
    exact i5 n hn
  · intro q hqt hq2
    show lookupFile (applyTrash A.st orphs) q = _
    unfold applyTrash
    rw [lookupFile_eq_findVal]
    show findVal (A.st.files.filter (fun e => !orphs.contains e.1)) q = _
    have hqo : q ∉ orphs := by
      intro hmem
      obtain ⟨h1, h2, h3⟩ := (horphmem q).1 hmem
      rcases hq2 with h4 | h5
      · exact h4 h1
      · rw [h5] at h3; exact absurd h3 (by simp)
    rw [findVal_filter_notin hqo, ← lookupFile_eq_findVal]
    exact i4 q hqt
  · intro q hqt hqe hqs
    have hqo : q ∈ orphs := (horphmem q).2 ⟨hqe, hqt, hqs⟩
    constructor
    · show lookupFile (applyTrash A.st orphs) q = none
      unfold applyTrash
      rw [lookupFile_eq_findVal]
      show findVal (A.st.files.filter (fun e => !orphs.contains e.1)) q = none
      exact findVal_filter_in hqo
    · show Ev.trash q ∈ A.evs ++ orphs.map Ev.trash
      exact List.mem_append.2 (Or.inr (List.mem_map.2 ⟨q, hqo, rfl⟩))
  · show (applyTrash A.st orphs).folders = st0.folders
    unfold applyTrash
    exact i1
  · intro p hp
    show _ ∧ _
    rcases List.mem_append.1 hp with h1 | h2
    · rcases i8 _ h1 with h3 | ⟨m, _, hh⟩
      · simp at h3
      · rcases hh with h4 | h4 | h4 <;> exact absurd h4 (by simp)
    · obtain ⟨q, hq, heq⟩ := List.mem_map.1 h2
      injection heq with heq2
      subst heq2
      obtain ⟨_, h5, h6⟩ := (horphmem q).1 hq
      exact ⟨h5, h6⟩
  · intro p hp
    rcases hp with h1 | h1
    all_goals {
      rcases List.mem_append.1 h1 with h2 | h3
      · rcases i8 _ h2 with h4 | ⟨m, hm, hh⟩
        · simp at h4
        · rcases hh with h5 | h5 | h5 <;>
            first
            | (injection h5 with h6; exact h6 ▸ List.mem_map.2 ⟨m, hm, rfl⟩)
            | (exact absurd h5 (by simp))
      · obtain ⟨q, _, heq⟩ := List.mem_map.1 h3
        exact absurd heq (by simp)
    }
  · intro hnd
    show ((applyTrash A.st orphs).files.map (·.1)).Nodup
    unfold applyTrash
    exact List.Nodup.sublist ((List.filter_sublist _).map _) (i9 hnd)
  · exact by simpa using i7

theorem parseNoteFile_not_marked {p c : String}
    (h : ∀ fm, parseFM c = some fm → ¬ fm.type = some "sticky-note".data) :
    (parseNoteFile p c).2 = none := by
  match hp : parseFM c with
  | none =>
    simp only [parseNoteFile, hp]
  | some fm =>
    simp only [parseNoteFile, hp]
    rw [if_neg (h fm hp)]

theorem isStickyFile_false_elim {st : St} {q c : String}
    (hs : isStickyFile st q = false) (hl : lookupFile st q = some c) :
    ∀ fm, parseFM c = some fm → ¬ fm.type = some "sticky-note".data := by
  intro fm hfm heq
  unfold isStickyFile getCache at hs
  rw [hl] at hs
  have hs2 : (match parseFM c with
              | some fm => fm.type == some "sticky-note".data
              | none => false) = false := hs
  rw [hfm] at hs2
  have hs3 : (fm.type == some "sticky-note".data) = false := hs2
  rw [heq] at hs3
  simp at hs3

theorem loadBoard_eq (st : St) (b : String) :
    (loadBoard st b).2 =
      ((mdChildPaths st (boardFolderPath b)).map
        (fun p => parseNoteFile p ((lookupFile st p).getD ""))).filterMap (·.2) := rfl

/-- The save/load round trip: after a well-behaved `saveBoard`, the loaded
note set is exactly the saved notes with coordinates rounded, bodies trimmed,
and storage locators at the written targets. -/
theorem loadBoard_after_saveBoard {st0 : St} {b : String} {notes : List Note}
    (hfold : st0.folders.contains (boardFolderPath b) = true)
    (hgood : ∀ n ∈ notes, goodNote st0 b n)
    (hndT : (notes.map (noteTarget st0 b)).Nodup)
    (hvalid : ∀ n ∈ notes, validNote n = true)
    (hshape : ∀ n ∈ notes,
      isDirectChild (boardFolderPath b) (noteTarget st0 b n) = true ∧
      extOf (noteTarget st0 b n) = "md") :
    ∀ m, m ∈ (loadBoard (saveBoard st0 b notes).1 b).2 ↔
      ∃ n, n ∈ notes ∧ m = roundTripNote (noteTarget st0 b n) n := by
  obtain ⟨b1, b2, b3, b4, b5, b6, b7, b8⟩ := saveBoard_good hfold hgood hndT
  intro m
  rw [loadBoard_eq, List.filterMap_map]
  rw [List.mem_filterMap]
  constructor
  · rintro ⟨p, hp, hparse⟩
    simp only [Function.comp_apply] at hparse
    rw [mdChildPaths_mem] at hp
    obtain ⟨hc, hsome, hdc, hmd⟩ := hp
    by_cases hpt : p ∈ notes.map (noteTarget st0 b)
    · obtain ⟨n, hn, rfl⟩ := List.mem_map.1 hpt
      refine ⟨n, hn, ?_⟩
      rw [b1 n hn] at hparse
      rw [show (some (constructFileContent n)).getD "" = constructFileContent n from rfl]
        at hparse
      rw [parseNoteFile_encode (hvalid n hn)] at hparse
      simp only [Option.some_inj] at hparse
      exact hparse.symm
    · exfalso
      by_cases hsk : p ∈ mdChildPaths st0 (boardFolderPath b) ∧ isStickyFile st0 p = true
      · have := (b3 p hpt hsk.1 hsk.2).1
        rw [this] at hsome
        simp at hsome
      · have hns : p ∉ mdChildPaths st0 (boardFolderPath b) ∨ isStickyFile st0 p = false := by
          by_cases h1 : p ∈ mdChildPaths st0 (boardFolderPath b)
          · right
            match h2 : isStickyFile st0 p with
            | false => rfl
            | true => exact absurd ⟨h1, h2⟩ hsk
          · exact Or.inl h1
        have hl := b2 p hpt hns
        rw [hl] at hsome
        match hc0 : lookupFile st0 p with
        | none => rw [hc0] at hsome; simp at hsome
        | some c =>
          have hpex : p ∈ mdChildPaths st0 (boardFolderPath b) := by
            rw [mdChildPaths_mem]
            exact ⟨hfold, by rw [hc0]; rfl, hdc, hmd⟩
          have hsticky : isStickyFile st0 p = false := by
            rcases hns with h1 | h1
            · exact absurd hpex h1
            · exact h1
          rw [hl, hc0] at hparse
          rw [show (some c).getD "" = c from rfl] at hparse
          rw [parseNoteFile_not_marked (isStickyFile_false_elim hsticky hc0)] at hparse
          exact Option.noConfusion hparse
  · rintro ⟨n, hn, rfl⟩
    refine ⟨noteTarget st0 b n, ?_, ?_⟩
    · rw [mdChildPaths_mem]
      exact ⟨by rw [b4]; exact hfold, by rw [b1 n hn]; rfl,
        (hshape n hn).1, (hshape n hn).2⟩
    · simp only [Function.comp_apply]
      rw [b1 n hn]
      rw [show (some (constructFileContent n)).getD "" = constructFileContent n from rfl]
      rw [parseNoteFile_encode (hvalid n hn)]

/-- With the board folder present, `saveNote` skips the folder-creation step. -/
theorem saveNote_folder_present {st : St} {b : String} (n : Note)
    (hfold : st.folders.contains (boardFolderPath b) = true) :
    saveNote st b n = saveNoteCore st [] b n := by
  unfold saveNote
  rw [hfold]
  simp

/-- Saving an already-synchronised note (the target file holds exactly the
fresh encoding) performs a single full-content read and no write. -/
theorem saveNote_synced {st : St} {b : String} {n : Note}
    (hfold : st.folders.contains (boardFolderPath b) = true)
    (hne : n.filepath ≠ "")
    (hc : lookupFile st n.filepath = some (constructFileContent n))
    (hv : validNote n = true) :
    saveNote st b n = (st, [Ev.read n.filepath], n, some n.filepath) := by
  rw [saveNote_folder_present n hfold]
  unfold saveNoteCore
  rw [if_pos ⟨hne, by rw [hc]; rfl⟩, writeExisting_eq]
  have hcache : getCache st n.filepath = some (fmOfNote n) := by
    unfold getCache
    rw [hc]
    show parseFM (constructFileContent n) = _
    exact parseFM_encode hv
  rw [hcache, hasMetadataChanged_fmOfNote]
  rw [if_neg (by simp)]
  rw [if_neg (by rw [hc]; exact fun h => h rfl)]
  rfl

/-- A note with an empty storage locator whose synthesized path is occupied
by a folder fails safely: no state change, no events, `none` returned. -/
theorem saveNote_fail {st : St} {b : String} {n : Note}
    (hfold : st.folders.contains (boardFolderPath b) = true)
    (hfp : n.filepath = "")
    (hl : lookupFile st (boardFolderPath b ++ "/Note " ++ n.id ++ ".md") = none)
    (hocc : st.folders.contains (boardFolderPath b ++ "/Note " ++ n.id ++ ".md") = true) :
    saveNote st b n = (st, [], n, none) := by
  rw [saveNote_folder_present n hfold]
  unfold saveNoteCore
  rw [if_neg (by rintro ⟨h1, _⟩; exact h1 hfp)]
  rw [if_neg (by rw [hl]; simp)]
  rw [if_pos hocc]

/-- Overwriting the content at `p` leaves the value stored under any other
path unchanged. -/
theorem lookup_modify_ne {st : St} {p q : String} (c : String) (hq : q ≠ p) :
    lookupFile (modifyFile st p c) q = lookupFile st q := by
  rw [lookupFile_eq_findVal, lookupFile_eq_findVal]
  exact findVal_map_set_ne _ _ _ _ hq

/-- Either write path of an existing target touches no other path. -/
theorem writeExisting_lookup_other {st : St} {evs0 : List Ev} {n : Note}
    {f q : String} (hq : q ≠ f) :
    lookupFile (writeExisting st evs0 n f).1 q = lookupFile st q := by
  rw [writeExisting_eq]
  by_cases h1 : hasMetadataChanged (getCache st f) n = true
  · rw [if_pos h1]
    exact lookup_modify_ne _ hq
  · rw [if_neg h1]
    by_cases h2 : (lookupFile st f).getD "" ≠ constructFileContent n
    · rw [if_pos h2]
      exact lookup_modify_ne _ hq
    · rw [if_neg h2]

/-- `saveNote` touches no path other than the note's storage locator and its
synthesized `Note <id>.md` path. -/
theorem saveNote_lookup_other {st : St} {b : String} {n : Note} {q : String}
    (hq1 : q ≠ n.filepath)
    (hq2 : q ≠ boardFolderPath b ++ "/Note " ++ n.id ++ ".md") :
    lookupFile (saveNote st b n).1 q = lookupFile st q := by
  have hcore : ∀ (st1 : St) (evs0 : List Ev), st1.files = st.files →
      lookupFile (saveNoteCore st1 evs0 b n).1 q = lookupFile st q := by
    intro st1 evs0 hf
    have hst1 : lookupFile st1 q = lookupFile st q := by
      unfold lookupFile
      rw [hf]
    unfold saveNoteCore
    by_cases hA : n.filepath ≠ "" ∧ (lookupFile st1 n.filepath).isSome
    · rw [if_pos hA]
      rw [writeExisting_lookup_other hq1]
      exact hst1
    · rw [if_neg hA]
      by_cases hB : (lookupFile st1 (boardFolderPath b ++ "/Note " ++ n.id ++ ".md")).isSome
      · rw [if_pos hB]
        rw [writeExisting_lookup_other hq2]
        exact hst1
      · rw [if_neg hB]
        by_cases hC : st1.folders.contains (boardFolderPath b ++ "/Note " ++ n.id ++ ".md") = true
        · rw [if_pos hC]
          exact hst1
        · rw [if_neg (by rw [Bool.not_eq_true] at hC; rw [hC]; simp)]
          show lookupFile { st1 with files := _ } q = _
          rw [lookupFile_eq_findVal]
          show findVal (st1.files ++ _) q = _
          rw [findVal_append_one_ne _ hq2, ← lookupFile_eq_findVal]
          exact hst1
  unfold saveNote
  split
  · exact hcore _ _ rfl
  · exact hcore _ _ rfl

/-- `saveNote` never touches the trash or the migrated list, creates at most
the board folder, and every file entry it leaves behind either reuses an
existing key or sits at the synthesized `Note <id>.md` path. -/
theorem saveNote_misc (st : St) (b : String) (n : Note) :
    (saveNote st b n).1.trashed = st.trashed ∧
    (saveNote st b n).1.migrated = st.migrated ∧
    ((saveNote st b n).1.folders = st.folders ∨
     (saveNote st b n).1.folders = st.folders ++ [boardFolderPath b]) ∧
    (∀ e ∈ (saveNote st b n).1.files,
      (∃ e0, e0 ∈ st.files ∧ e.1 = e0.1) ∨
      e.1 = boardFolderPath b ++ "/Note " ++ n.id ++ ".md") := by
  have hcore : ∀ (st1 : St) (evs0 : List Ev),
      st1.files = st.files → st1.trashed = st.trashed → st1.migrated = st.migrated →
      (saveNoteCore st1 evs0 b n).1.trashed = st.trashed ∧
      (saveNoteCore st1 evs0 b n).1.migrated = st.migrated ∧
      (saveNoteCore st1 evs0 b n).1.folders = st1.folders ∧
      (∀ e ∈ (saveNoteCore st1 evs0 b n).1.files,
        (∃ e0, e0 ∈ st.files ∧ e.1 = e0.1) ∨
        e.1 = boardFolderPath b ++ "/Note " ++ n.id ++ ".md") := by
    intro st1 evs0 hf ht hm
    have hmem : ∀ e, e ∈ st1.files → (∃ e0, e0 ∈ st.files ∧ e.1 = e0.1) := by
      intro e he
      exact ⟨e, by rw [← hf]; exact he, rfl⟩
    have hwe2 : ∀ f, (writeExisting st1 evs0 n f).1.trashed = st.trashed ∧
        (writeExisting st1 evs0 n f).1.migrated = st.migrated ∧
        (writeExisting st1 evs0 n f).1.folders = st1.folders ∧
        (∀ e ∈ (writeExisting st1 evs0 n f).1.files,
          (∃ e0, e0 ∈ st.files ∧ e.1 = e0.1) ∨
          e.1 = boardFolderPath b ++ "/Note " ++ n.id ++ ".md") := by
      intro f
      have hmap : ∀ c, ∀ e ∈ st1.files.map (fun e => if e.1 = f then (f, c) else e),
          (∃ e0, e0 ∈ st.files ∧ e.1 = e0.1) := by
        intro c e he
        obtain ⟨e0, he0, heq⟩ := List.mem_map.1 he
        refine ⟨e0, by rw [← hf]; exact he0, ?_⟩
        rw [← heq]
        by_cases h2 : e0.1 = f
        · rw [if_pos h2]
          exact h2.symm
        · rw [if_neg h2]
      rw [writeExisting_eq]
      by_cases h1 : hasMetadataChanged (getCache st1 f) n = true
      · rw [if_pos h1]
        exact ⟨ht, hm, rfl, fun e he => Or.inl (hmap _ e he)⟩
      · rw [if_neg h1]
        by_cases h2 : (lookupFile st1 f).getD "" ≠ constructFileContent n
        · rw [if_pos h2]
          exact ⟨ht, hm, rfl, fun e he => Or.inl (hmap _ e he)⟩
        · rw [if_neg h2]
          exact ⟨ht, hm, rfl, fun e he => Or.inl (hmem e he)⟩
    unfold saveNoteCore
    by_cases hA : n.filepath ≠ "" ∧ (lookupFile st1 n.filepath).isSome
    · rw [if_pos hA]
      exact hwe2 n.filepath
    · rw [if_neg hA]
      by_cases hB : (lookupFile st1 (boardFolderPath b ++ "/Note " ++ n.id ++ ".md")).isSome
      · rw [if_pos hB]
        exact hwe2 _
      · rw [if_neg hB]
        by_cases hC : st1.folders.contains (boardFolderPath b ++ "/Note " ++ n.id ++ ".md") = true
        · rw [if_pos hC]
          exact ⟨ht, hm, rfl, fun e he => Or.inl (hmem e he)⟩
        · rw [if_neg (by rw [Bool.not_eq_true] at hC; rw [hC]; simp)]
          refine ⟨ht, hm, rfl, ?_⟩
          intro e he
          rcases List.mem_append.1 he with h1 | h2
          · exact Or.inl (hmem e h1)
          · right
            simp only [List.mem_singleton] at h2
            rw [h2]
  unfold saveNote
  split
  · have h := hcore { st with folders := st.folders ++ [boardFolderPath b] }
      [Ev.mkdir (boardFolderPath b)] rfl rfl rfl
    exact ⟨h.1, h.2.1, Or.inr h.2.2.1, h.2.2.2⟩
  · have h := hcore st [] rfl rfl rfl
    exact ⟨h.1, h.2.1, Or.inl h.2.2.1, h.2.2.2⟩

/-- C9: The specification asks every call site that can trigger board
deletion to enforce a last-board guard.  The dashboard call site
(`handleDeleteBoard`, dashboard.tsx:101) does reject a one-board state, but
the sticky-notes widget call site (`onDeleteBoard`, notes/index.tsx:186)
invokes `deleteBoard` unconditionally, so the universally quantified claim
fails; this counterexample exhibits a one-board list on which the widget
call site still reaches `deleteBoard`. -/
theorem c9_counterexample :
    (["StickyNotes/A"] : List String).length ≤ 1 ∧
    widgetInvokesDelete ["StickyNotes/A"] "A" = true := by
  exact ⟨by decide, rfl⟩

/-- C9 (amended): in a one-board state the dashboard call site never reaches
`deleteBoard`, whatever the user answers to the confirmation modal; the
widget call site carries no such guard and always reaches it. -/
theorem c9_amended (fileList : List String) (confirmed : Bool) (name : String)
    (h : fileList.length ≤ 1) :
    dashboardInvokesDelete fileList confirmed = false ∧
    widgetInvokesDelete fileList name = true := by
  unfold dashboardInvokesDelete
  rw [if_pos h]
  exact ⟨rfl, rfl⟩

theorem c9_amended_witness :
    dashboardInvokesDelete ["StickyNotes/A"] true = false ∧
    widgetInvokesDelete ["StickyNotes/A"] "A" = true :=
  c9_amended ["StickyNotes/A"] true "A" (by decide)

/-- C10: a sticky-marked file whose header lacks an `id` field (or carries an
empty one) is not rejected by `parseNoteFile`: it parses to a record whose
identifier is the file's base name, re-synthesized from the file name. -/
theorem c10_theorem (path content : String) (fm : FM)
    (hp : parseFM content = some fm)
    (ht : fm.type = some "sticky-note".data)
    (hid : fm.id = none ∨ fm.id = some []) :
    ∃ n, (parseNoteFile path content).2 = some n ∧ n.id = basename path := by
  simp only [parseNoteFile, hp]
  rw [if_pos ht]
  refine ⟨_, rfl, ?_⟩
  show (⟨strOr fm.id (basename path).data⟩ : String) = basename path
  rcases hid with h | h
  · rw [h]
    exact strEta _
  · rw [h]
    exact strEta _

theorem c10_witness :
    ∃ n, (parseNoteFile "StickyNotes/B/Card 7.md" c10content).2 = some n ∧
      n.id = basename "StickyNotes/B/Card 7.md" :=
  c10_theorem _ _
    { type := some "sticky-note".data, color := some "blue".data }
    (by decide) (by decide) (Or.inl rfl)

/-- C2: the claim says decoding an encoded valid note preserves the body
text exactly.  It does not: `parseNoteFile` trims the body
(WhiteboardFileManager.ts:543 `.trim()`), so a valid note whose body carries
leading or trailing whitespace does not come back equal in every non-coordinate
field.  `nWs` (body `" hi"`) is such a note: the decoded record differs from
the claimed record even after rounding `x` and `y`. -/
theorem c2_counterexample :
    validNote nWs = true ∧
    (parseNoteFile "StickyNotes/B/Note n-1.md" (constructFileContent nWs)).2
      ≠ some { nWs with x := intAsRat (jsRound nWs.x), y := intAsRat (jsRound nWs.y) } := by
  exact ⟨by decide, by decide⟩

/-- C2 (amended): decoding the encoded file text of a valid note yields the
note with `x` and `y` rounded to the nearest integer, the body text trimmed
of surrounding whitespace (otherwise preserved exactly), and the storage
locator set to the decoded file's path. -/
theorem c2_amended {n : Note} (hv : validNote n = true) (p : String) :
    parseNoteFile p (constructFileContent n)
      = ([Ev.read p], some (roundTripNote p n)) :=
  parseNoteFile_encode hv p

theorem c2_amended_witness :
    parseNoteFile "StickyNotes/B/Note n-1.md" (constructFileContent n0)
      = ([Ev.read "StickyNotes/B/Note n-1.md"],
         some (roundTripNote "StickyNotes/B/Note n-1.md" n0)) :=
  c2_amended (by decide) "StickyNotes/B/Note n-1.md"

/-- C6: the dirty-check ladder of `saveNote` for an existing target file `f`
holding content `c`: (i) if the cached metadata comparison reports a change,
it overwrites without any read; (ii) if the metadata is clean but the stored
bytes differ from the fresh encoding, it reads the file and overwrites;
(iii) if the target already holds exactly the fresh encoding, it reads the
file and performs no write, leaving the state untouched. -/
theorem c6_theorem {st : St} {b : String} {n : Note} {f c : String}
    (hfold : st.folders.contains (boardFolderPath b) = true)
    (hfp : n.filepath = f) (hne : f ≠ "")
    (hc : lookupFile st f = some c) :
    (hasMetadataChanged (parseFM c) n = true →
      saveNote st b n = (modifyFile st f (constructFileContent n),
        [Ev.modify f], { n with filepath := f }, some f)) ∧
    (hasMetadataChanged (parseFM c) n = false → c ≠ constructFileContent n →
      saveNote st b n = (modifyFile st f (constructFileContent n),
        [Ev.read f, Ev.modify f], { n with filepath := f }, some f)) ∧
    (validNote n = true → c = constructFileContent n →
      saveNote st b n = (st, [Ev.read f], { n with filepath := f }, some f)) := by
  subst hfp
  have hbase : saveNote st b n = writeExisting st [] n n.filepath := by
    rw [saveNote_folder_present n hfold]
    unfold saveNoteCore
    rw [if_pos ⟨hne, by rw [hc]; rfl⟩]
  have hcache : getCache st n.filepath = parseFM c := by
    unfold getCache
    rw [hc]
    rfl
  refine ⟨?_, ?_, ?_⟩
  · intro hdirty
    rw [hbase, writeExisting_eq, hcache, if_pos hdirty]
    rfl
  · intro hclean hdiff
    rw [hbase, writeExisting_eq, hcache, if_neg (by rw [hclean]; simp)]
    rw [if_pos (by rw [hc]; exact hdiff)]
    rfl
  · intro hv hsame
    have hclean : hasMetadataChanged (parseFM c) n = false := by
      rw [hsame, parseFM_encode hv]
      exact hasMetadataChanged_fmOfNote n
    rw [hbase, writeExisting_eq, hcache, if_neg (by rw [hclean]; simp)]
    rw [if_neg (by rw [hc]; exact fun hne2 => hne2 hsame)]
    rfl

theorem c6_witness :
    saveNote st6 "B" nWs
      = ({ st6 with files := [("StickyNotes/B/Note n-1.md", constructFileContent nWs)] },
         [Ev.modify "StickyNotes/B/Note n-1.md"],
         nWs, some "StickyNotes/B/Note n-1.md") := by
  have h := (@c6_theorem st6 "B" nWs "StickyNotes/B/Note n-1.md"
      "# user text" (by decide) rfl (by decide) (by decide)).1 (by decide)
  refine Eq.trans h ?_
  decide

/-- Folding the save step over notes that are already synchronised (target
file holds exactly the fresh encoding) only reads each target and changes
nothing. -/
theorem saveFold_synced {st : St} {b : String}
    (hfold : st.folders.contains (boardFolderPath b) = true) :
    ∀ (notes : List Note) (acc : SaveAcc), acc.st = st →
      (∀ n ∈ notes, validNote n = true ∧ n.filepath ≠ "" ∧
        lookupFile st n.filepath = some (constructFileContent n)) →
      notes.foldl (saveBoardStep b) acc
        = ⟨st, acc.evs ++ notes.map (fun n => Ev.read n.filepath),
           acc.outNotes ++ notes, acc.active ++ notes.map (·.filepath)⟩ := by
  intro notes
  induction notes with
  | nil =>
    intro acc hacc _
    rw [List.foldl_nil]
    cases acc
    simp only at hacc
    simp [hacc]
  | cons n ns ih =>
    intro acc hacc hsync
    obtain ⟨hv, hne, hc⟩ := hsync n (by simp)
    have hsn : saveNote acc.st b n = (st, [Ev.read n.filepath], n, some n.filepath) := by
      rw [hacc]
      exact saveNote_synced hfold hne hc hv
    set acc' := saveBoardStep b acc n with hacc'
    rw [show List.foldl (saveBoardStep b) acc (n :: ns)
          = List.foldl (saveBoardStep b) acc' ns from rfl]
    have h1 : acc'.st = st := by
      show (saveNote acc.st b n).1 = st
      rw [hsn]
    have h2 : acc'.evs = acc.evs ++ [Ev.read n.filepath] := by
      show acc.evs ++ (saveNote acc.st b n).2.1 = _
      rw [hsn]
    have h3 : acc'.outNotes = acc.outNotes ++ [n] := by
      show acc.outNotes ++ [(saveNote acc.st b n).2.2.1] = _
      rw [hsn]
    have h4 : acc'.active = acc.active ++ [n.filepath] := by
      show (match (saveNote acc.st b n).2.2.2 with
            | some p => acc.active ++ [p]
            | none => acc.active) = _
      rw [hsn]
    rw [ih acc' h1 (fun m hm => hsync m (by simp [hm]))]
    rw [h2, h3, h4]
    simp [List.append_assoc]

/-- Trashing an empty orphan list is a no-op. -/
theorem applyTrash_nil (st1 : St) : applyTrash st1 [] = st1 := by
  cases st1
  simp [applyTrash]

/-- C1: the claim says a second `saveBoard` over an unchanged, fully
synchronised note list performs zero full-content reads when the metadata
index reports no differences.  It does not: the clean-metadata branch of
`saveNote` (WhiteboardFileManager.ts:607) falls back to reading the full
current content before deciding to skip the write, so the second save of
board `B` performs one `vault.read` for its one note even though the cached
metadata comparison reports no change. -/
theorem c1_counterexample :
    hasMetadataChanged (getCache stC1 nC1.filepath) nC1 = false ∧
    lookupFile stC1 nC1.filepath = some (constructFileContent nC1) ∧
    ((saveBoard stC1 "B" [nC1]).2.1.filter isReadEv).length = 1 := by
  exact ⟨by decide, by decide, by decide⟩

/-- C1 (amended): re-saving a fully synchronised board performs exactly one
full-content read per note and nothing else: no writes, no trashes, no state
change — the events are precisely the per-note reads, the returned notes are
the input list, and the vault is returned unchanged. -/
theorem c1_amended {st : St} {b : String} {notes : List Note}
    (hfold : st.folders.contains (boardFolderPath b) = true)
    (hsync : ∀ n ∈ notes, validNote n = true ∧ n.filepath ≠ "" ∧
      lookupFile st n.filepath = some (constructFileContent n))
    (hnoorph : ∀ p ∈ mdChildPaths st (boardFolderPath b),
      isStickyFile st p = true → p ∈ notes.map (fun n => n.filepath)) :
    saveBoard st b notes
      = (st, notes.map (fun n => Ev.read n.filepath), notes) := by
  rw [saveBoard_eq]
  rw [saveFold_synced hfold notes ⟨st, [], [], []⟩ rfl hsync]
  have horph : orphansOf st (([] : List String) ++ notes.map (fun n => n.filepath))
      (mdChildPaths st (boardFolderPath b)) = [] := by
    unfold orphansOf
    rw [List.filter_eq_nil_iff]
    intro p hp
    rintro hcond
    rw [Bool.and_eq_true, Bool.not_eq_true'] at hcond
    obtain ⟨hna, hs⟩ := hcond
    have hmem := hnoorph p hp hs
    rw [List.nil_append] at hna
    have := contains_iff_mem.2 hmem
    rw [this] at hna
    exact Bool.noConfusion hna
  show (applyTrash _ _, _, _) = _
  rw [horph, applyTrash_nil]
  simp

theorem c1_amended_witness :
    saveBoard stC1 "B" [nC1]
      = (stC1, [Ev.read "StickyNotes/B/Note n-1.md"], [nC1]) := by
  have h := @c1_amended stC1 "B" [nC1] (by decide) (by decide) (by decide)
  refine Eq.trans h ?_
  decide

/-- C3: the claim says `loadBoard` after `saveBoard` returns the saved notes
with content equal up to integer rounding of `x` and `y`.  The body text is
also changed: `parseNoteFile` trims it, so saving a note whose body is
`" a "` and loading it back yields body `"a"`, a difference outside the
claimed rounding. -/
theorem c3_counterexample :
    (∀ n ∈ [nA3], validNote n = true) ∧
    ((loadBoard (saveBoard st0 "B" [nA3]).1 "B").2.map Note.content) = ["a"] ∧
    [nA3].map Note.content = [" a "] := by
  exact ⟨by decide, by decide, by decide⟩

/-- C3 (amended): for a well-behaved save (board folder present, each note's
storage locator empty or live, targets pairwise distinct markdown children
of the board folder, notes valid), loading immediately after saving yields
exactly the saved identifiers, and each loaded record is a saved note with
`x` and `y` rounded to integers, the body trimmed, and the storage locator
set to the note's target file. -/
theorem c3_amended {st0 : St} {b : String} {notes : List Note}
    (hfold : st0.folders.contains (boardFolderPath b) = true)
    (hgood : ∀ n ∈ notes, goodNote st0 b n)
    (hndT : (notes.map (noteTarget st0 b)).Nodup)
    (hvalid : ∀ n ∈ notes, validNote n = true)
    (hshape : ∀ n ∈ notes,
      isDirectChild (boardFolderPath b) (noteTarget st0 b n) = true ∧
      extOf (noteTarget st0 b n) = "md") :
    (∀ i, i ∈ (loadBoard (saveBoard st0 b notes).1 b).2.map Note.id ↔
      i ∈ notes.map Note.id) ∧
    (∀ m, m ∈ (loadBoard (saveBoard st0 b notes).1 b).2 ↔
      ∃ n, n ∈ notes ∧ m = roundTripNote (noteTarget st0 b n) n) := by
  have hmain := loadBoard_after_saveBoard hfold hgood hndT hvalid hshape
  refine ⟨?_, hmain⟩
  intro i
  constructor
  · intro hi
    obtain ⟨m, hm, rfl⟩ := List.mem_map.1 hi
    obtain ⟨n, hn, rfl⟩ := (hmain m).1 hm
    exact List.mem_map.2 ⟨n, hn, rfl⟩
  · intro hi
    obtain ⟨n, hn, rfl⟩ := List.mem_map.1 hi
    exact List.mem_map.2 ⟨roundTripNote (noteTarget st0 b n) n,
      (hmain _).2 ⟨n, hn, rfl⟩, rfl⟩

theorem c3_amended_witness :
    "n-1" ∈ (loadBoard (saveBoard st0 "B" [n0]).1 "B").2.map Note.id := by
  have h := @c3_amended st0 "B" [n0] (by decide) (by decide) (by decide)
    (by decide) (by decide)
  exact (h.1 "n-1").2 (by decide)

/-- C4: the claim says no reconciler operation ever modifies a file whose
header lacks the sticky-note marker.  The write path does not check the
marker: `st6` holds an unmarked user file (`# user text`) at the note's
target path, and `saveBoard` overwrites it with the fresh encoding.  (Only
the orphan-trash path checks the marker.) -/
theorem c4_counterexample :
    isStickyFile st6 "StickyNotes/B/Note n-1.md" = false ∧
    lookupFile st6 "StickyNotes/B/Note n-1.md" = some "# user text" ∧
    lookupFile (saveBoard st6 "B" [nC1]).1 "StickyNotes/B/Note n-1.md"
      = some (constructFileContent nC1) ∧
    constructFileContent nC1 ≠ "# user text" := by
  exact ⟨by decide, by decide, by decide, by decide⟩

/-- C4 (amended): for a well-behaved save, deletion (trashing) is reserved
to marker-bearing files, and an unmarked file is never touched unless it
sits at a path some saved note resolves to — a file at a note's target path
is overwritten regardless of its header. -/
theorem c4_amended {st0 : St} {b : String} {notes : List Note}
    (hfold : st0.folders.contains (boardFolderPath b) = true)
    (hgood : ∀ n ∈ notes, goodNote st0 b n)
    (hndT : (notes.map (noteTarget st0 b)).Nodup) :
    (∀ p, Ev.trash p ∈ (saveBoard st0 b notes).2.1 → isStickyFile st0 p = true) ∧
    (∀ q, isStickyFile st0 q = false → q ∉ notes.map (noteTarget st0 b) →
      lookupFile (saveBoard st0 b notes).1 q = lookupFile st0 q) ∧
    (∀ p, Ev.modify p ∈ (saveBoard st0 b notes).2.1 ∨
          Ev.create p ∈ (saveBoard st0 b notes).2.1 →
      p ∈ notes.map (noteTarget st0 b)) := by
  obtain ⟨b1, b2, b3, b4, b5, b6, b7, b8⟩ := saveBoard_good hfold hgood hndT
  refine ⟨?_, ?_, b6⟩
  · intro p hp
    exact (b5 p hp).2
  · intro q hsq hqt
    exact b2 q hqt (Or.inr hsq)

theorem c4_amended_witness :
    lookupFile (saveBoard stC4 "B" [n0]).1 "StickyNotes/B/readme.md"
      = lookupFile stC4 "StickyNotes/B/readme.md" := by
  have h := @c4_amended stC4 "B" [n0] (by decide) (by decide) (by decide)
  exact h.2.1 "StickyNotes/B/readme.md" (by decide) (by decide)

/-- C5: orphan cleanup.  For a well-behaved save over a board directory
containing a sticky-marked file `F2` backing no saved note: every saved
note's target (in particular F1) ends up holding the fresh encoding, `F2` is
gone from the active listing with a trash event issued for it, and no path
that received a write in this save is trashed by it. -/
theorem c5_theorem {st0 : St} {b : String} {notes : List Note} {F2 : String}
    (hfold : st0.folders.contains (boardFolderPath b) = true)
    (hgood : ∀ n ∈ notes, goodNote st0 b n)
    (hndT : (notes.map (noteTarget st0 b)).Nodup)
    (hF2ex : F2 ∈ mdChildPaths st0 (boardFolderPath b))
    (hF2nt : F2 ∉ notes.map (noteTarget st0 b))
    (hF2sticky : isStickyFile st0 F2 = true) :
    (∀ n ∈ notes, lookupFile (saveBoard st0 b notes).1 (noteTarget st0 b n)
      = some (constructFileContent n)) ∧
    lookupFile (saveBoard st0 b notes).1 F2 = none ∧
    Ev.trash F2 ∈ (saveBoard st0 b notes).2.1 ∧
    (∀ p, Ev.modify p ∈ (saveBoard st0 b notes).2.1 ∨
          Ev.create p ∈ (saveBoard st0 b notes).2.1 →
      Ev.trash p ∉ (saveBoard st0 b notes).2.1) := by
  obtain ⟨b1, b2, b3, b4, b5, b6, b7, b8⟩ := saveBoard_good hfold hgood hndT
  obtain ⟨h31, h32⟩ := b3 F2 hF2nt hF2ex hF2sticky
  refine ⟨b1, h31, h32, ?_⟩
  intro p hw ht
  exact absurd (b6 p hw) (fun hmem => (b5 p ht).1 hmem)

theorem c5_witness :
    lookupFile (saveBoard st5 "B" [n0]).1 (noteTarget st5 "B" n0)
      = some (constructFileContent n0) ∧
    lookupFile (saveBoard st5 "B" [n0]).1 "StickyNotes/B/old.md" = none ∧
    Ev.trash "StickyNotes/B/old.md" ∈ (saveBoard st5 "B" [n0]).2.1 := by
  have h := @c5_theorem st5 "B" [n0] "StickyNotes/B/old.md"
    (by decide) (by decide) (by decide) (by decide) (by decide) (by decide)
  exact ⟨h.1 n0 (by decide), h.2.1, h.2.2.1⟩

/-- The save fold is driven only by the accumulator's state: two
accumulators with the same state produce the same final state and append
the same event/note/path suffixes. -/
theorem saveFold_same_st (b : String) : ∀ (notes : List Note) (a1 a2 : SaveAcc),
    a1.st = a2.st →
    (notes.foldl (saveBoardStep b) a1).st = (notes.foldl (saveBoardStep b) a2).st ∧
    ∃ evsD outD actD,
      (notes.foldl (saveBoardStep b) a1).evs = a1.evs ++ evsD ∧
      (notes.foldl (saveBoardStep b) a2).evs = a2.evs ++ evsD ∧
      (notes.foldl (saveBoardStep b) a1).outNotes = a1.outNotes ++ outD ∧
      (notes.foldl (saveBoardStep b) a2).outNotes = a2.outNotes ++ outD ∧
      (notes.foldl (saveBoardStep b) a1).active = a1.active ++ actD ∧
      (notes.foldl (saveBoardStep b) a2).active = a2.active ++ actD := by
  intro notes
  induction notes with
  | nil =>
    intro a1 a2 h
    exact ⟨h, [], [], [], by simp, by simp, by simp, by simp, by simp, by simp⟩
  | cons n ns ih =>
    intro a1 a2 h
    set r := saveNote a1.st b n with hr
    have hr2 : saveNote a2.st b n = r := by rw [hr, h]
    set b1 := saveBoardStep b a1 n with hb1
    set b2 := saveBoardStep b a2 n with hb2
    have hst : b1.st = b2.st := by
      show (saveNote a1.st b n).1 = (saveNote a2.st b n).1
      rw [hr2, ← hr]
    have hevs1 : b1.evs = a1.evs ++ r.2.1 := rfl
    have hevs2 : b2.evs = a2.evs ++ r.2.1 := by
      show a2.evs ++ (saveNote a2.st b n).2.1 = _
      rw [hr2]
    have hout1 : b1.outNotes = a1.outNotes ++ [r.2.2.1] := rfl
    have hout2 : b2.outNotes = a2.outNotes ++ [r.2.2.1] := by
      show a2.outNotes ++ [(saveNote a2.st b n).2.2.1] = _
      rw [hr2]
    have hact1 : b1.active = a1.active
        ++ (match r.2.2.2 with | some p => [p] | none => []) := by
      show (match (saveNote a1.st b n).2.2.2 with
            | some p => a1.active ++ [p] | none => a1.active) = _
      rw [← hr]
      match r.2.2.2 with
      | some p => rfl
      | none => simp
    have hact2 : b2.active = a2.active
        ++ (match r.2.2.2 with | some p => [p] | none => []) := by
      show (match (saveNote a2.st b n).2.2.2 with
            | some p => a2.active ++ [p] | none => a2.active) = _
      rw [hr2]
      match r.2.2.2 with
      | some p => rfl
      | none => simp
    obtain ⟨ihst, evsD, outD, actD, he1, he2, ho1, ho2, ha1, ha2⟩ := ih b1 b2 hst
    rw [show List.foldl (saveBoardStep b) a1 (n :: ns)
          = List.foldl (saveBoardStep b) b1 ns from rfl]
    rw [show List.foldl (saveBoardStep b) a2 (n :: ns)
          = List.foldl (saveBoardStep b) b2 ns from rfl]
    refine ⟨ihst, r.2.1 ++ evsD, r.2.2.1 :: outD,
      (match r.2.2.2 with | some p => [p] | none => []) ++ actD, ?_, ?_, ?_, ?_, ?_, ?_⟩
    · rw [he1, hevs1, List.append_assoc]
    · rw [he2, hevs2, List.append_assoc]
    · rw [ho1, hout1, List.append_assoc]
      rfl
    · rw [ho2, hout2, List.append_assoc]
      rfl
    · rw [ha1, hact1, List.append_assoc]
    · rw [ha2, hact2, List.append_assoc]

/-- `checkAndMigrate` written over the named fold body (definitional). -/
theorem checkAndMigrate_eq (st : St) :
    checkAndMigrate st =
      (if st.folders.contains
          (if st.folders.contains (basePath ++ "/Whiteboards")
              || (lookupFile st (basePath ++ "/Whiteboards")).isSome
            then basePath ++ "/Whiteboards" else basePath) then
        ((st.files.filter (fun e =>
            isDirectChild
              (if st.folders.contains (basePath ++ "/Whiteboards")
                  || (lookupFile st (basePath ++ "/Whiteboards")).isSome
                then basePath ++ "/Whiteboards" else basePath) e.1
            && extOf e.1 == "json")).map (·.1)).foldl chkStep (st, [])
      else (st, [])) := rfl

/-- A qualifying file (not `data.json`, not recorded) runs `migrateFile`. -/
theorem chkStep_run {s : St} {evs : List Ev} {p : String}
    (hname : fileName p ≠ "data.json")
    (hrec : s.migrated.contains (fileName p) = false) :
    chkStep (s, evs) p = ((migrateFile s p).1, evs ++ (migrateFile s p).2) := by
  unfold chkStep
  rw [if_neg hname]
  rw [if_neg (show ¬((s, evs).1.migrated.contains (fileName p) = true) by
    rw [show (s, evs).1 = s from rfl, hrec]; simp)]

/-- A file whose content does not parse is only read: the error is caught
and the state is unchanged. -/
theorem migrateFile_badparse {st : St} {p c : String}
    (hc : lookupFile st p = some c) (hp : parseLegacy c = none) :
    migrateFile st p = (st, [Ev.read p]) := by
  unfold migrateFile
  rw [hc]
  simp only [Option.getD_some]
  rw [hp]

/-- C7: failure isolation.  Board side: a note whose save fails (empty
locator, synthesized path occupied by a folder — the source's try/catch
returns null) changes nothing about the rest of the save: state and events
equal the save without it, the other notes are still written with their
targets registered, orphan cleanup still runs, and the failed note is
carried through unchanged in the returned list.  Migration side: a legacy
file whose content fails to parse only adds its read; the next qualifying
file is still migrated from an unchanged state. -/
theorem c7_theorem
    {st0 : St} {b : String} {pre post : List Note} {bad : Note}
    (hfold : st0.folders.contains (boardFolderPath b) = true)
    (hgood : ∀ n ∈ pre ++ post, goodNote st0 b n)
    (hndT : ((pre ++ post).map (noteTarget st0 b)).Nodup)
    (hbadfp : bad.filepath = "")
    (hbadlook : lookupFile st0 (boardFolderPath b ++ "/Note " ++ bad.id ++ ".md") = none)
    (hbadocc : st0.folders.contains (boardFolderPath b ++ "/Note " ++ bad.id ++ ".md") = true)
    (hbadnt : boardFolderPath b ++ "/Note " ++ bad.id ++ ".md" ∉ pre.map (noteTarget st0 b))
    {stm : St} {pb pg cb : String}
    (hlegf : stm.folders.contains (basePath ++ "/Whiteboards") = false)
    (hlegl : lookupFile stm (basePath ++ "/Whiteboards") = none)
    (htgt : stm.folders.contains basePath = true)
    (hjson : (stm.files.filter (fun e =>
        isDirectChild basePath e.1 && extOf e.1 == "json")).map (·.1) = [pb, pg])
    (hbc : lookupFile stm pb = some cb)
    (hbp : parseLegacy cb = none)
    (hbname : fileName pb ≠ "data.json")
    (hbrec : stm.migrated.contains (fileName pb) = false)
    (hgname : fileName pg ≠ "data.json")
    (hgrec : stm.migrated.contains (fileName pg) = false) :
    (saveBoard st0 b (pre ++ bad :: post)).1 = (saveBoard st0 b (pre ++ post)).1 ∧
    (saveBoard st0 b (pre ++ bad :: post)).2.1
      = (saveBoard st0 b (pre ++ post)).2.1 ∧
    (saveBoard st0 b (pre ++ bad :: post)).2.2
      = pre.map (fun n => { n with filepath := noteTarget st0 b n })
        ++ bad :: post.map (fun n => { n with filepath := noteTarget st0 b n }) ∧
    checkAndMigrate stm
      = ((migrateFile stm pg).1, Ev.read pb :: (migrateFile stm pg).2) := by
  -- board side
  have hgoodPre : ∀ n ∈ pre, goodNote st0 b n :=
    fun n hn => hgood n (List.mem_append.2 (Or.inl hn))
  have hndTm := hndT
  rw [List.map_append] at hndTm
  have hndPre : (pre.map (noteTarget st0 b)).Nodup :=
    List.Nodup.sublist (List.sublist_append_left _ _) hndTm
  obtain ⟨i1, i2, i3, i4, i5, i6, i7, i8, i9⟩ :=
    saveFold_good hfold pre ⟨st0, [], [], []⟩ hgoodPre hndPre rfl (fun _ h => h)
  set P := pre.foldl (saveBoardStep b) ⟨st0, [], [], []⟩ with hP
  have hfoldP : P.st.folders.contains (boardFolderPath b) = true := by
    rw [i1]; exact hfold
  have hlookP : lookupFile P.st (boardFolderPath b ++ "/Note " ++ bad.id ++ ".md") = none := by
    rw [i4 _ hbadnt]; exact hbadlook
  have hoccP : P.st.folders.contains (boardFolderPath b ++ "/Note " ++ bad.id ++ ".md") = true := by
    rw [i1]; exact hbadocc
  have hsnbad : saveNote P.st b bad = (P.st, [], bad, none) :=
    saveNote_fail hfoldP hbadfp hlookP hoccP
  set Q := saveBoardStep b P bad with hQ
  have hQst : Q.st = P.st := by
    show (saveNote P.st b bad).1 = P.st
    rw [hsnbad]
  have hQevs : Q.evs = P.evs := by
    show P.evs ++ (saveNote P.st b bad).2.1 = _
    rw [hsnbad]
    simp
  have hQout : Q.outNotes = P.outNotes ++ [bad] := by
    show P.outNotes ++ [(saveNote P.st b bad).2.2.1] = _
    rw [hsnbad]
  have hQact : Q.active = P.active := by
    show (match (saveNote P.st b bad).2.2.2 with
          | some p => P.active ++ [p] | none => P.active) = _
    rw [hsnbad]
  have hfold1 : (pre ++ bad :: post).foldl (saveBoardStep b) ⟨st0, [], [], []⟩
      = post.foldl (saveBoardStep b) Q := by
    rw [List.foldl_append]
    rfl
  have hfold2 : (pre ++ post).foldl (saveBoardStep b) ⟨st0, [], [], []⟩
      = post.foldl (saveBoardStep b) P := by
    rw [List.foldl_append]
  obtain ⟨sst, evsD, outD, actD, he1, he2, ho1, ho2, ha1, ha2⟩ :=
    saveFold_same_st b post Q P hQst
  have hEvs : (post.foldl (saveBoardStep b) Q).evs
      = (post.foldl (saveBoardStep b) P).evs := by
    rw [he1, he2, hQevs]
  have hAct : (post.foldl (saveBoardStep b) Q).active
      = (post.foldl (saveBoardStep b) P).active := by
    rw [ha1, ha2, hQact]
  obtain ⟨j1, j2, j3, j4, j5, j6, j7, j8, j9⟩ :=
    saveFold_good hfold (pre ++ post) ⟨st0, [], [], []⟩ hgood hndT rfl (fun _ h => h)
  have houtD : outD = post.map (fun n => { n with filepath := noteTarget st0 b n }) := by
    have h1 : P.outNotes ++ outD
        = (pre ++ post).map (fun n => { n with filepath := noteTarget st0 b n }) := by
      rw [← ho2, ← hfold2, j7]
      rfl
    rw [List.map_append] at h1
    have h2 : P.outNotes = pre.map (fun n => { n with filepath := noteTarget st0 b n }) := by
      rw [i7]
      rfl
    rw [h2] at h1
    exact List.append_cancel_left h1
  refine ⟨?_, ?_, ?_, ?_⟩
  · rw [saveBoard_eq, saveBoard_eq, hfold1, hfold2, sst, hAct]
  · rw [saveBoard_eq, saveBoard_eq, hfold1, hfold2, sst, hAct, hEvs]
  · rw [saveBoard_eq, hfold1]
    show (post.foldl (saveBoardStep b) Q).outNotes = _
    rw [ho1, hQout, houtD]
    have h2 : P.outNotes = pre.map (fun n => { n with filepath := noteTarget st0 b n }) := by
      rw [i7]
      rfl
    rw [h2, List.append_assoc]
    rfl
  -- migration side
  · rw [checkAndMigrate_eq, hlegf, hlegl]
    simp only [Option.isSome_none, Bool.or_self, Bool.false_eq_true, if_false]
    rw [htgt, if_pos rfl, hjson]
    rw [List.foldl_cons]
    rw [chkStep_run hbname hbrec]
    rw [migrateFile_badparse hbc hbp]
    rw [List.foldl_cons, List.foldl_nil]
    rw [chkStep_run hgname hgrec]
    simp

theorem c7_witness :
    (saveBoard st7 "B" [n0, nBad]).1 = (saveBoard st7 "B" [n0]).1 ∧
    (saveBoard st7 "B" [n0, nBad]).2.1 = (saveBoard st7 "B" [n0]).2.1 ∧
    (saveBoard st7 "B" [n0, nBad]).2.2
      = [{ n0 with filepath := noteTarget st7 "B" n0 }, nBad] ∧
    checkAndMigrate stm7
      = ((migrateFile stm7 "StickyNotes/Ideas.json").1,
         Ev.read "StickyNotes/Bad.json"
           :: (migrateFile stm7 "StickyNotes/Ideas.json").2) := by
  have h := @c7_theorem st7 "B" [n0] [] nBad
    (by decide) (by decide) (by decide) (by decide) (by decide) (by decide) (by decide)
    stm7 "StickyNotes/Bad.json" "StickyNotes/Ideas.json" "oops"
    (by decide) (by decide) (by decide) (by decide) (by decide) (by decide)
    (by decide) (by decide) (by decide) (by decide)
  exact h

/-- Neither write path of an existing target touches the folder list. -/
theorem writeExisting_folders (st1 : St) (evs0 : List Ev) (n : Note) (f : String) :
    (writeExisting st1 evs0 n f).1.folders = st1.folders := by
  rw [writeExisting_eq]
  split
  · rfl
  · split
    · rfl
    · rfl

/-- The write stage never touches the folder list. -/
theorem saveNoteCore_folders (st1 : St) (evs0 : List Ev) (b : String) (n : Note) :
    (saveNoteCore st1 evs0 b n).1.folders = st1.folders := by
  unfold saveNoteCore
  split
  · exact writeExisting_folders _ _ _ _
  · split
    · exact writeExisting_folders _ _ _ _
    · split
      · rfl
      · rfl

/-- With the board folder already present, `saveNote` leaves the folder
list unchanged. -/
theorem saveNote_folders_contains {st : St} {b : String} (n : Note)
    (h : st.folders.contains (boardFolderPath b) = true) :
    (saveNote st b n).1.folders = st.folders := by
  rw [saveNote_folder_present n h]
  exact saveNoteCore_folders _ _ _ _

/-- Appending a dot-extension (no slash or dot inside) sets the extension. -/
theorem extOf_strcat (s : String) (e : List Char)
    (he1 : '/' ∉ e) (he2 : '.' ∉ e) :
    extOf (s ++ ⟨'.' :: e⟩) = ⟨e⟩ := by
  have h : (s ++ (⟨'.' :: e⟩ : String)) = ⟨s.data ++ '.' :: e⟩ :=
    String.ext (by rw [String.data_append])
  rw [h]
  exact extOf_dot_suffix s e he1 he2

/-- Any path of the form `s ++ ".md"` reads back extension `md`. -/
theorem extOf_md (s : String) : extOf (s ++ ".md") = "md" := by
  have h : extOf (s ++ ⟨'.' :: ['m', 'd']⟩) = ⟨['m', 'd']⟩ :=
    extOf_strcat s ['m', 'd'] (by decide) (by decide)
  exact h

/-- A synthesized note file inside a board folder is not a direct child of
the base folder (it sits one level deeper). -/
theorem isDirectChild_base_noteFile (bn idv : String) :
    isDirectChild basePath (boardFolderPath bn ++ "/Note " ++ idv ++ ".md") = false := by
  have hdata : (boardFolderPath bn ++ "/Note " ++ idv ++ ".md")
      = ⟨basePath.data ++ '/' :: (bn.data ++ "/Note ".data ++ idv.data ++ ".md".data)⟩ := by
    apply String.ext
    show (((boardFolderPath bn ++ "/Note ") ++ idv) ++ ".md").data = _
    rw [String.data_append, String.data_append, String.data_append]
    rw [show (boardFolderPath bn).data
          = basePath.data ++ '/' :: bn.data by
        show ((basePath ++ "/") ++ bn).data = _
        rw [String.data_append, String.data_append]
        simp]
    simp [List.append_assoc]
  rw [hdata, isDirectChild_concat]
  have hmem : '/' ∈ bn.data ++ "/Note ".data ++ idv.data ++ ".md".data := by
    refine List.mem_append.2 (Or.inl ?_)
    refine List.mem_append.2 (Or.inl ?_)
    refine List.mem_append.2 (Or.inr ?_)
    decide
  have hcont := List.elem_eq_true_of_mem hmem
  rw [show (bn.data ++ "/Note ".data ++ idv.data ++ ".md".data).contains '/'
        = true from hcont]
  simp

/-- Renaming the entries keyed `p` leaves every other key's lookup alone. -/
theorem findVal_rename_other : ∀ (l : List (String × String)) (p p2 q : String),
    q ≠ p → q ≠ p2 →
    findVal (l.map (fun e => if e.1 = p then (p2, e.2) else e)) q = findVal l q := by
  intro l p p2 q hq1 hq2
  induction l with
  | nil => rfl
  | cons e t ih =>
    by_cases he : e.1 = p
    · simp only [List.map_cons, if_pos he]
      rw [findVal_cons_ne _ (fun hh => hq2 hh.symm),
        findVal_cons_ne _ (by rw [he]; exact fun hh => hq1 hh.symm)]
      exact ih
    · simp only [List.map_cons, if_neg he]
      by_cases heq : e.1 = q
      · rw [findVal_cons_self _ heq, findVal_cons_self _ heq]
      · rw [findVal_cons_ne _ heq, findVal_cons_ne _ heq]
        exact ih

/-- After the rename, the new key answers with the old key's value
(provided the new key was fresh). -/
theorem findVal_rename_self : ∀ (l : List (String × String)) (p p2 : String),
    findVal l p2 = none →
    findVal (l.map (fun e => if e.1 = p then (p2, e.2) else e)) p2 = findVal l p := by
  intro l p p2 hfresh
  induction l with
  | nil => rfl
  | cons e t ih =>
    by_cases he : e.1 = p
    · simp only [List.map_cons, if_pos he]
      rw [findVal_cons_self _ rfl, findVal_cons_self _ he]
    · simp only [List.map_cons, if_neg he]
      by_cases heq : e.1 = p2
      · rw [findVal_cons_self _ heq] at hfresh
        exact Option.noConfusion hfresh
      · rw [findVal_cons_ne _ heq]
        rw [findVal_cons_ne _ heq] at hfresh
        rw [findVal_cons_ne _ he]
        exact ih hfresh

/-- After the rename, the old key no longer answers. -/
theorem findVal_rename_gone : ∀ (l : List (String × String)) (p p2 : String),
    p ≠ p2 →
    findVal (l.map (fun e => if e.1 = p then (p2, e.2) else e)) p = none := by
  intro l p p2 hne
  induction l with
  | nil => rfl
  | cons e t ih =>
    by_cases he : e.1 = p
    · simp only [List.map_cons, if_pos he]
      rw [findVal_cons_ne _ (fun hh => hne hh.symm)]
      exact ih
    · simp only [List.map_cons, if_neg he]
      rw [findVal_cons_ne _ he]
      exact ih

/-- The migration's note loop over a board folder that already exists: the
folder/trash/settings state is preserved, any path that is empty-named or
not a markdown file keeps its lookup, and every file entry it leaves behind
reuses an existing key or is a synthesized note file one level below the
base folder. -/
theorem migFold_facts (bn : String) : ∀ (notes : List Note) (a : St × List Ev),
    a.1.folders.contains (boardFolderPath bn) = true →
    (notes.foldl (migrateNoteStep bn) a).1.folders = a.1.folders ∧
    (notes.foldl (migrateNoteStep bn) a).1.trashed = a.1.trashed ∧
    (notes.foldl (migrateNoteStep bn) a).1.migrated = a.1.migrated ∧
    (∀ q, q ≠ "" → extOf q ≠ "md" →
      lookupFile (notes.foldl (migrateNoteStep bn) a).1 q = lookupFile a.1 q) ∧
    (∀ e ∈ (notes.foldl (migrateNoteStep bn) a).1.files,
      (∃ e0, e0 ∈ a.1.files ∧ e.1 = e0.1) ∨
      (extOf e.1 = "md" ∧ isDirectChild basePath e.1 = false)) := by
  intro notes
  induction notes with
  | nil =>
    intro a _
    exact ⟨rfl, rfl, rfl, fun _ _ _ => rfl, fun e he => Or.inl ⟨e, he, rfl⟩⟩
  | cons n ns ih =>
    intro a hfold
    set n' : Note := { n with filepath := "" } with hn'
    set a' := migrateNoteStep bn a n with ha'
    have ha'1 : a'.1 = (saveNote a.1 bn n').1 := rfl
    obtain ⟨m1, m2, m3, m4⟩ := saveNote_misc a.1 bn n'
    have hfolders : a'.1.folders = a.1.folders := by
      rw [ha'1]
      exact saveNote_folders_contains n' hfold
    have hfold' : a'.1.folders.contains (boardFolderPath bn) = true := by
      rw [hfolders]
      exact hfold
    have hsynth : ∀ q : String, q ≠ "" → extOf q ≠ "md" →
        q ≠ boardFolderPath bn ++ "/Note " ++ n'.id ++ ".md" := by
      intro q _ hq2 hq
      apply hq2
      rw [hq]
      exact extOf_md (boardFolderPath bn ++ "/Note " ++ n'.id)
    obtain ⟨i1, i2, i3, i4, i5⟩ := ih a' hfold'
    rw [show List.foldl (migrateNoteStep bn) a (n :: ns)
          = List.foldl (migrateNoteStep bn) a' ns from rfl]
    refine ⟨by rw [i1, hfolders], by rw [i2, ha'1, m1], by rw [i3, ha'1, m2], ?_, ?_⟩
    · intro q hq1 hq2
      rw [i4 q hq1 hq2, ha'1,
        saveNote_lookup_other (show q ≠ n'.filepath from hq1) (hsynth q hq1 hq2)]
    · intro e he
      rcases i5 e he with ⟨e0, he0, hkey⟩ | hmd
      · rw [ha'1] at he0
        rcases m4 e0 he0 with ⟨e1, he1, hkey1⟩ | hsyn
        · exact Or.inl ⟨e1, he1, hkey.trans hkey1⟩
        · right
          rw [hkey, hsyn]
          exact ⟨extOf_md _, isDirectChild_base_noteFile bn n'.id⟩
      · exact Or.inr hmd

theorem ne_append_migrated (p : String) : p ≠ p ++ ".migrated" := by
  intro h
  have h2 := congrArg (fun s => s.data.length) h
  simp only [String.data_append, List.length_append] at h2
  rw [show (".migrated" : String).data.length = 9 from rfl] at h2
  omega

/-- `migrateFile` on a fresh, parseable legacy file, written as the fold it
performs (definitional once the guards are discharged). -/
theorem migrateFile_run {st : St} {p c w : String} {notes : List Note}
    (hc : lookupFile st p = some c)
    (hparse : parseLegacy c = some (some notes, w))
    (hbf : st.folders.contains (basePath ++ "/" ++ basename p) = false)
    (hbl : lookupFile st (basePath ++ "/" ++ basename p) = none) :
    migrateFile st p =
      ({ (migFolded st p notes).1 with
          migrated := (migFolded st p notes).1.migrated ++ [fileName p]
          files := (migFolded st p notes).1.files.map
            (fun e => if e.1 = p then (p ++ ".migrated", e.2) else e) },
       Ev.read p :: (migFolded st p notes).2
         ++ [Ev.rename p (p ++ ".migrated")]) := by
  unfold migrateFile
  simp only [hc, Option.getD_some, hparse, hbf, hbl, Option.isSome_none,
    Bool.or_self, Bool.false_eq_true, if_false, migFolded]

/-- End-to-end facts about migrating one fresh, parseable legacy file: the
new board folder is the only folder added, nothing is trashed, the file's
name joins the migrated list, the original's content moves to the
`.migrated` key (the original key disappears), every other non-markdown
path keeps its lookup, and every surviving file entry reuses an existing
key (possibly renamed) or is a synthesized note file below the base
folder. -/
theorem migrateFile_fresh {st : St} {p c w : String} {notes : List Note}
    (hc : lookupFile st p = some c)
    (hparse : parseLegacy c = some (some notes, w))
    (hbf : st.folders.contains (basePath ++ "/" ++ basename p) = false)
    (hbl : lookupFile st (basePath ++ "/" ++ basename p) = none)
    (hmigl : lookupFile st (p ++ ".migrated") = none)
    (hpne : p ≠ "")
    (hpext : extOf p ≠ "md")
    (hmigext : extOf (p ++ ".migrated") ≠ "md") :
    (migrateFile st p).1.folders = st.folders ++ [basePath ++ "/" ++ basename p] ∧
    (migrateFile st p).1.trashed = st.trashed ∧
    (migrateFile st p).1.migrated = st.migrated ++ [fileName p] ∧
    lookupFile (migrateFile st p).1 (p ++ ".migrated") = some c ∧
    lookupFile (migrateFile st p).1 p = none ∧
    (∀ q, q ≠ "" → extOf q ≠ "md" → q ≠ p → q ≠ p ++ ".migrated" →
      lookupFile (migrateFile st p).1 q = lookupFile st q) ∧
    (∀ e ∈ (migrateFile st p).1.files,
      (∃ e0, e0 ∈ st.files ∧ (e.1 = e0.1 ∨ (e0.1 = p ∧ e.1 = p ++ ".migrated"))) ∨
      (extOf e.1 = "md" ∧ isDirectChild basePath e.1 = false)) := by
  have hmigne : p ++ ".migrated" ≠ "" := by
    intro h
    have h2 := congrArg (fun s => s.data.length) h
    simp only [String.data_append, List.length_append] at h2
    rw [show (".migrated" : String).data.length = 9 from rfl] at h2
    simp at h2
  have hfoldin : ({ st with folders := st.folders ++ [basePath ++ "/" ++ basename p] }
      : St).folders.contains (boardFolderPath (basename p)) = true := by
    show (st.folders ++ [basePath ++ "/" ++ basename p]).contains _ = true
    exact contains_iff_mem.2 (List.mem_append.2 (Or.inr (List.mem_singleton.2 rfl)))
  obtain ⟨f1, f2, f3, f4, f5⟩ := migFold_facts (basename p) notes
    ({ st with folders := st.folders ++ [basePath ++ "/" ++ basename p] },
     [Ev.mkdir (basePath ++ "/" ++ basename p)]) hfoldin
  rw [migrateFile_run hc hparse hbf hbl]
  have hRe : migFolded st p notes
      = notes.foldl (migrateNoteStep (basename p))
          ({ st with folders := st.folders ++ [basePath ++ "/" ++ basename p] },
           [Ev.mkdir (basePath ++ "/" ++ basename p)]) := rfl
  have hlookA : ∀ q, lookupFile ({ st with
      folders := st.folders ++ [basePath ++ "/" ++ basename p] } : St) q
      = lookupFile st q := fun q => rfl
  have hlookR : ∀ q, q ≠ "" → extOf q ≠ "md" →
      lookupFile (migFolded st p notes).1 q = lookupFile st q := by
    intro q h1 h2
    rw [hRe, f4 q h1 h2, hlookA]
  have hRmig : lookupFile (migFolded st p notes).1 (p ++ ".migrated") = none := by
    rw [hlookR _ hmigne hmigext]
    exact hmigl
  have hRp : lookupFile (migFolded st p notes).1 p = some c := by
    rw [hlookR _ hpne hpext]
    exact hc
  refine ⟨?_, ?_, ?_, ?_, ?_, ?_, ?_⟩
  · show (migFolded st p notes).1.folders = _
    rw [hRe, f1]
  · show (migFolded st p notes).1.trashed = _
    rw [hRe, f2]
  · show (migFolded st p notes).1.migrated ++ [fileName p] = _
    rw [hRe, f3]
  · rw [lookupFile_eq_findVal]
    show findVal ((migFolded st p notes).1.files.map _) _ = _
    rw [findVal_rename_self _ p _
      (by rw [← lookupFile_eq_findVal]; exact hRmig)]
    rw [← lookupFile_eq_findVal]
    exact hRp
  · rw [lookupFile_eq_findVal]
    show findVal ((migFolded st p notes).1.files.map _) _ = _
    exact findVal_rename_gone _ p _ (ne_append_migrated p)
  · intro q h1 h2 h3 h4
    rw [lookupFile_eq_findVal]
    show findVal ((migFolded st p notes).1.files.map _) _ = _
    rw [findVal_rename_other _ p _ q h3 h4, ← lookupFile_eq_findVal]
    exact hlookR q h1 h2
  · intro e he
    have he2 : e ∈ (migFolded st p notes).1.files.map
        (fun e => if e.1 = p then (p ++ ".migrated", e.2) else e) := he
    obtain ⟨e1, he1, heq⟩ := List.mem_map.1 he2
    rw [hRe] at he1
    rcases f5 e1 he1 with ⟨e0, he0, hkey⟩ | ⟨hm1, hm2⟩
    · have he0st : e0 ∈ st.files := he0
      by_cases h : e1.1 = p
      · left
        refine ⟨e0, he0st, Or.inr ⟨by rw [← hkey, h], ?_⟩⟩
        rw [← heq, if_pos h]
      · left
        refine ⟨e0, he0st, Or.inl ?_⟩
        rw [← heq, if_neg h]
        exact hkey
    · by_cases h : e1.1 = p
      · exact absurd (h ▸ hm1) hpext
      · right
        rw [← heq, if_neg h]
        exact ⟨hm1, hm2⟩

/-- C8: migration is idempotent and non-destructive.  For a base folder
holding exactly one qualifying legacy file `p` (parseable, fresh board name,
fresh `.migrated` name, no reserved legacy folder), one `checkAndMigrate`
creates exactly one new-format board directory, renames the original in
place to `p ++ ".migrated"` keeping its content (the original key
disappears, nothing is ever trashed), and records the file's name in the
persisted migrated list; a second run is a no-op: it returns the state
unchanged and performs no reads or writes. -/
theorem c8_theorem {st : St} {p c w : String} {notes : List Note}
    (hlegf : st.folders.contains (basePath ++ "/Whiteboards") = false)
    (hlegl : lookupFile st (basePath ++ "/Whiteboards") = none)
    (htgt : st.folders.contains basePath = true)
    (hjson : (st.files.filter (fun e =>
        isDirectChild basePath e.1 && extOf e.1 == "json")).map (·.1) = [p])
    (hc : lookupFile st p = some c)
    (hparse : parseLegacy c = some (some notes, w))
    (hname : fileName p ≠ "data.json")
    (hrec : st.migrated.contains (fileName p) = false)
    (hbf : st.folders.contains (basePath ++ "/" ++ basename p) = false)
    (hbl : lookupFile st (basePath ++ "/" ++ basename p) = none)
    (hmigl : lookupFile st (p ++ ".migrated") = none)
    (hbn : basename p ≠ "Whiteboards") :
    (checkAndMigrate st).1.folders = st.folders ++ [basePath ++ "/" ++ basename p] ∧
    (checkAndMigrate st).1.trashed = st.trashed ∧
    (checkAndMigrate st).1.migrated = st.migrated ++ [fileName p] ∧
    lookupFile (checkAndMigrate st).1 (p ++ ".migrated") = some c ∧
    lookupFile (checkAndMigrate st).1 p = none ∧
    checkAndMigrate (checkAndMigrate st).1 = ((checkAndMigrate st).1, []) := by
  -- facts about the key p read off the scan result
  have hpmem : p ∈ (st.files.filter (fun e =>
      isDirectChild basePath e.1 && extOf e.1 == "json")).map (·.1) := by
    rw [hjson]
    exact List.mem_singleton.2 rfl
  obtain ⟨ep, hepf, hepp⟩ := List.mem_map.1 hpmem
  obtain ⟨hepin, heppred⟩ := List.mem_filter.1 hepf
  rw [hepp] at heppred
  rw [Bool.and_eq_true] at heppred
  have hpchild : isDirectChild basePath p = true := heppred.1
  have hpjson : extOf p = "json" := by
    have h := heppred.2
    exact beq_iff_eq.1 h
  have hpne : p ≠ "" := by
    intro h
    rw [h] at hpchild
    exact absurd hpchild (by decide)
  have hpext : extOf p ≠ "md" := by
    rw [hpjson]
    decide
  have hmig_eq : extOf (p ++ ".migrated") = "migrated" := by
    have h := extOf_strcat p "migrated".data (by decide) (by decide)
    rw [show (⟨'.' :: "migrated".data⟩ : String) = ".migrated" from by decide] at h
    rw [show (⟨"migrated".data⟩ : String) = "migrated" from by decide] at h
    exact h
  have hmigext : extOf (p ++ ".migrated") ≠ "md" := by
    rw [hmig_eq]
    decide
  -- run 1 reduces to migrating p
  have hr1 : checkAndMigrate st = migrateFile st p := by
    rw [checkAndMigrate_eq, hlegf, hlegl]
    simp only [Option.isSome_none, Bool.or_self, Bool.false_eq_true, if_false]
    rw [htgt, if_pos rfl, hjson]
    rw [List.foldl_cons, List.foldl_nil, chkStep_run hname hrec]
    simp
  obtain ⟨g1, g2, g3, g4, g5, g6, g7⟩ :=
    migrateFile_fresh hc hparse hbf hbl hmigl hpne hpext hmigext
  -- legacy-path discriminations
  have hlp_ext : extOf (basePath ++ "/Whiteboards") = "" := by decide
  have hlp_ne : (basePath ++ "/Whiteboards") ≠ "" := by decide
  have hlp_extmd : extOf (basePath ++ "/Whiteboards") ≠ "md" := by decide
  have hlp_ne_p : (basePath ++ "/Whiteboards") ≠ p := by
    intro h
    rw [← h] at hpjson
    rw [hlp_ext] at hpjson
    exact absurd hpjson (by decide)
  have hlp_ne_mig : (basePath ++ "/Whiteboards") ≠ p ++ ".migrated" := by
    intro h
    rw [← h, hlp_ext] at hmig_eq
    exact absurd hmig_eq (by decide)
  have hlp_ne_nbp : (basePath ++ "/Whiteboards") ≠ basePath ++ "/" ++ basename p := by
    intro h
    apply hbn
    have h2 := congrArg String.data h
    rw [String.data_append, String.data_append, String.data_append] at h2
    rw [List.append_assoc] at h2
    have h3 := List.append_cancel_left h2
    have h4 : '/' :: "Whiteboards".data = '/' :: (basename p).data := h3
    have h5 := List.cons.inj h4
    exact (String.ext h5.2).symm
  -- run 2 facts about st' := (migrateFile st p).1
  have hlegf2 : (migrateFile st p).1.folders.contains (basePath ++ "/Whiteboards")
      = false := by
    rw [g1]
    match hx : (st.folders ++ [basePath ++ "/" ++ basename p]).contains
        (basePath ++ "/Whiteboards") with
    | false => rfl
    | true =>
      exfalso
      rcases List.mem_append.1 (contains_iff_mem.1 hx) with hm | hm
      · have htrue := contains_iff_mem.2 hm
        rw [hlegf] at htrue
        exact Bool.noConfusion htrue
      · exact hlp_ne_nbp (List.mem_singleton.1 hm)
  have hlegl2 : lookupFile (migrateFile st p).1 (basePath ++ "/Whiteboards")
      = none := by
    rw [g6 _ hlp_ne hlp_extmd hlp_ne_p hlp_ne_mig]
    exact hlegl
  have htgt2 : (migrateFile st p).1.folders.contains basePath = true := by
    rw [g1]
    exact contains_iff_mem.2 (List.mem_append.2 (Or.inl (contains_iff_mem.1 htgt)))
  have hp_gone : p ∉ (migrateFile st p).1.files.map (·.1) := by
    rw [← findVal_eq_none_iff, ← lookupFile_eq_findVal]
    exact g5
  have hfil : ((migrateFile st p).1.files.filter (fun e =>
      isDirectChild basePath e.1 && extOf e.1 == "json")) = [] := by
    rw [List.filter_eq_nil_iff]
    intro e he hpred
    rw [Bool.and_eq_true] at hpred
    rcases g7 e he with ⟨e0, he0, hkey | ⟨hkeyp, hkeymig⟩⟩ | ⟨hm1, hm2⟩
    · have hpred0 : (isDirectChild basePath e0.1 && extOf e0.1 == "json") = true := by
        rw [← hkey]
        rw [Bool.and_eq_true]
        exact hpred
      have he0f : e0 ∈ st.files.filter (fun e =>
          isDirectChild basePath e.1 && extOf e.1 == "json") :=
        List.mem_filter.2 ⟨he0, hpred0⟩
      have he0p : e0.1 = p := by
        have hmm : e0.1 ∈ [p] := by
          rw [← hjson]
          exact List.mem_map.2 ⟨e0, he0f, rfl⟩
        exact List.mem_singleton.1 hmm
      exact hp_gone (List.mem_map.2 ⟨e, he, hkey.trans he0p⟩)
    · have hext := beq_iff_eq.1 hpred.2
      rw [hkeymig, hmig_eq] at hext
      exact absurd hext (by decide)
    · rw [hm2] at hpred
      exact Bool.noConfusion hpred.1
  have hjson2 : ((migrateFile st p).1.files.filter (fun e =>
      isDirectChild basePath e.1 && extOf e.1 == "json")).map (·.1) = [] := by
    rw [hfil]
    rfl
  have hr2 : checkAndMigrate (migrateFile st p).1 = ((migrateFile st p).1, []) := by
    rw [checkAndMigrate_eq, hlegf2, hlegl2]
    simp only [Option.isSome_none, Bool.or_self, Bool.false_eq_true, if_false]
    rw [htgt2, if_pos rfl, hjson2, List.foldl_nil]
  rw [hr1]
  exact ⟨g1, g2, g3, g4, g5, hr2⟩

theorem c8_witness :
    (checkAndMigrate stm8).1.folders
      = stm8.folders ++ [basePath ++ "/" ++ basename "StickyNotes/Ideas.json"] ∧
    (checkAndMigrate stm8).1.trashed = stm8.trashed ∧
    (checkAndMigrate stm8).1.migrated
      = stm8.migrated ++ [fileName "StickyNotes/Ideas.json"] ∧
    lookupFile (checkAndMigrate stm8).1 ("StickyNotes/Ideas.json" ++ ".migrated")
      = some ideasJson ∧
    lookupFile (checkAndMigrate stm8).1 "StickyNotes/Ideas.json" = none ∧
    checkAndMigrate (checkAndMigrate stm8).1 = ((checkAndMigrate stm8).1, []) :=
  @c8_theorem stm8 "StickyNotes/Ideas.json" ideasJson "grid" [note8]
    (by decide) (by decide) (by decide) (by decide) (by decide) (by decide)
    (by decide) (by decide) (by decide) (by decide) (by decide) (by decide)
